import Mathlib

/-!
Verification of the `post-init` repository's `uvinit` core
(`src/commands/uvinit.rs`, `src/config.rs`, `src/main.rs`).

The TOML documents manipulated through the `toml_edit` crate are embedded
shallowly: a document is the root table, a table is an ordered association
list of key/item pairs (mirroring `toml_edit`'s `IndexMap`-backed `Table`),
and the `toml_edit` operations used by the code (`get`, `insert`, `remove`,
`entry().or_insert`, `as_table_mut`, `as_array_mut`, `set_implicit`,
`sort_values_by`, `Array::push`) are given as functions on that model.
File IO is abstracted away: the per-file transform is modelled on the parsed
document, and parse/serialize are explicit function parameters where a claim
is about file bytes.
-/

namespace PostInit

/-- Model of `toml_edit::Item` restricted to the shapes the code inspects:
`str` is `Value::String` (the only value kind the code reads back via
`as_str`), `arr` is `Value::Array`, `tbl` is `Item::Table` carrying its
`implicit` flag, and `other` stands for every remaining item kind
(integers, floats, booleans, dates, inline tables, arrays of tables),
none of which the code ever takes apart: `as_table` / `as_array` / `as_str`
all fail on them. -/
inductive Item where
  | str (s : String)
  | arr (elems : List Item)
  | tbl (implicit : Bool) (entries : List (String × Item))
  | other
deriving Repr, Inhabited

/-- A parsed TOML document is its root table: an ordered list of
key/item pairs, as in `toml_edit::DocumentMut`. -/
abbrev Doc := List (String × Item)

/-- `Value::as_str`: `some` exactly on string values. -/
def Item.as_str : Item → Option String
  | .str s => some s
  | _ => none

/-- `Table::get` / `DocumentMut::get`: first (unique, for parsed TOML)
entry with the given key. -/
def getEntry (k : String) : List (String × Item) → Option Item
  | [] => none
  | (k', v) :: rest => if k' = k then some v else getEntry k rest

/-- `Table::contains_key`. -/
def containsKey (k : String) (t : List (String × Item)) : Bool :=
  (getEntry k t).isSome

/-- `Table::insert` (`IndexMap` semantics): replace the value of an
existing key in place, otherwise append the new pair at the end. -/
def insertEntry (k : String) (v : Item) : List (String × Item) → List (String × Item)
  | [] => [(k, v)]
  | (k', v') :: rest =>
    if k' = k then (k', v) :: rest else (k', v') :: insertEntry k v rest

/-- `Table::remove` (`IndexMap::shift_remove`): drop the entry with the
given key, preserving the relative order of the remaining entries. -/
def removeEntry (k : String) : List (String × Item) → List (String × Item)
  | [] => []
  | (k', v') :: rest =>
    if k' = k then rest else (k', v') :: removeEntry k rest

/-- `get_mut` followed by an in-place mutation of the found item:
apply `f` to the value of the (first) entry with key `k`, if any. -/
def modifyEntry (k : String) (f : Item → Item) : List (String × Item) → List (String × Item)
  | [] => []
  | (k', v') :: rest =>
    if k' = k then (k', f v') :: rest else (k', v') :: modifyEntry k f rest

/-- `table.entry(k).or_insert(v)`'s effect on the table: insert `(k, v)`
at the end when `k` is absent, leave the table unchanged otherwise. -/
def ensureEntry (k : String) (v : Item) (t : List (String × Item)) : List (String × Item) :=
  if containsKey k t then t else t ++ [(k, v)]

/-! ### `Table::sort_values_by`

`toml_edit`'s `sort_values_by` forwards the comparator to the backing
`IndexMap::sort_by`, which sorts the entry vector with Rust's stable
`slice::sort_by`.  For slices shorter than about twenty elements — every
realistic manifest table — that sort is a plain stable insertion sort:
element `i` is shifted left past each predecessor `p` as long as
`compare(element, p) == Less`.  `insertShift` is one such insertion step
(the element lands in front of the maximal run of trailing predecessors it
compares `Less` against), and `sortValuesBy` folds it over the list. -/

/-- One insertion step of Rust's stable insertion sort: place `e` before
the longest suffix of `l` whose members `p` all satisfy `less e p`. -/
def insertShift (less : (String × Item) → (String × Item) → Bool)
    (l : List (String × Item)) (e : String × Item) : List (String × Item) :=
  (l.reverse.dropWhile (fun p => less e p)).reverse
    ++ e :: (l.reverse.takeWhile (fun p => less e p)).reverse

/-- Stable insertion sort over the table's entries, with `less a b`
meaning the comparator returned `Ordering::Less` on `(a, b)`. -/
def sortValuesBy (less : (String × Item) → (String × Item) → Bool)
    (l : List (String × Item)) : List (String × Item) :=
  l.foldl (insertShift less) []

/-- The comparator of `modify_pyproject_toml` step 1 (uvinit.rs:87-93),
reduced to its `Less` cases: `Less` exactly when the left key is
`"dynamic"` and the right key is not `"version"`; it never returns
`Greater`. -/
def dynLess (e1 e2 : String × Item) : Bool :=
  e1.1 = "dynamic" && e2.1 ≠ "version"

/-! ### The `[uvinit]` settings object

`modify_pyproject_toml` and `run_uvinit` read six fields off the config
value (uvinit.rs lines 80, 101, 104, 108, 132, 164, 196, 264 and the test
at lines 558-565).  `UvinitConfig` models that consumer-side shape.  The
actual declaration in `src/config.rs` is recorded separately below for the
claim about the settings object itself. -/

structure UvinitConfig where
  skip_dirs : List String
  add_hatch_vcs : Bool
  enable_dynamic_version : Bool
  additional_requires : List String
  enable_pytest_asyncio : Bool
  enable_bandit : Bool

/-- `default_skip_dirs()` from src/config.rs:78-92. -/
def default_skip_dirs : List String :=
  [".git", ".venv", "venv", "__pycache__", ".pytest_cache", "node_modules",
   ".tox", "build", "dist", ".eggs", "target"]

/-- The fields that `src/config.rs:13-27` actually declares on
`UvinitConfig`, in declaration order. -/
def uvinitConfigDeclaredFields : List String :=
  ["skip_dirs", "add_hatch_vcs", "enable_dynamic_version", "additional_requires"]

/-- The config fields `src/commands/uvinit.rs` reads or constructs
(`modify_pyproject_toml` lines 80, 101, 104, 108, 132, 164, 196;
`run_uvinit` line 264; the struct literal in the test at lines 558-565). -/
def uvinitUsedFields : List String :=
  ["skip_dirs", "add_hatch_vcs", "enable_dynamic_version", "additional_requires",
   "enable_pytest_asyncio", "enable_bandit"]

/-- The `impl Default for UvinitConfig` at src/config.rs:49-58, over the
fields config.rs declares (the two tool-integration flags are absent
there, so no default exists for them). -/
structure UvinitConfigDecl where
  skip_dirs : List String
  add_hatch_vcs : Bool
  enable_dynamic_version : Bool
  additional_requires : List String

def uvinitConfigDeclDefault : UvinitConfigDecl :=
  { skip_dirs := default_skip_dirs
    add_hatch_vcs := true
    enable_dynamic_version := true
    additional_requires := [] }

/-! ### `has_project_dynamic` (uvinit.rs:50-67), document level -/

/-- `has_project_dynamic` on the parsed document: true iff a top-level
`project` entry exists, is a (non-inline) table, and contains the key
`dynamic`. -/
def has_project_dynamic (d : Doc) : Bool :=
  match getEntry "project" d with
  | some it =>
    match it with
    | .tbl _ es => containsKey "dynamic" es
    | _ => false
  | none => false

/-! ### `modify_pyproject_toml` (uvinit.rs:69-253), document level -/

/-- `array.iter().any(|v| v.as_str() == Some(s))`: the presence test used
before each conditional append (uvinit.rs:120, 218, 234-236). -/
def hasStr (xs : List Item) (s : String) : Bool :=
  xs.any (fun v => v.as_str = some s)

/-- The conditional-append of one string to a TOML array, as in the three
`for`-loops at uvinit.rs:119-125, 217-223 and 233-241: push `s` unless
some element is the string `s`. -/
def addIfAbsent (xs : List Item) (s : String) : List Item :=
  if hasStr xs s then xs else xs ++ [Item.str s]

/-- Sequential conditional appends, in list order. -/
def addStringsIfAbsent (xs : List Item) (ss : List String) : List Item :=
  ss.foldl addIfAbsent xs

/-- Apply `f` to an item's table entries if it is a table (as in
`if let Some(t) = item.as_table_mut()`); leave anything else alone. -/
def asTableEdit (f : List (String × Item) → List (String × Item)) : Item → Item
  | .tbl imp es => .tbl imp (f es)
  | it => it

/-- Apply `f` to an item's table entries after `set_implicit(true)`, as in
the `tool.*` edits; leave non-tables alone. -/
def asTableImpEdit (f : List (String × Item) → List (String × Item)) : Item → Item
  | .tbl _ es => .tbl true (f es)
  | it => it

/-- Apply `f` to an item's array elements if it is an array (as in
`if let Some(a) = item.as_array_mut()`); leave anything else alone. -/
def asArrayEdit (f : List Item → List Item) : Item → Item
  | .arr xs => .arr (f xs)
  | it => it

/-- `table.entry(k).or_insert(value(Array::new()))` followed by the
conditional appends on the resulting item when it is an array
(uvinit.rs:114-126, 212-224, 228-242). -/
def entryArrayAdd (k : String) (toAdd : List String)
    (es : List (String × Item)) : List (String × Item) :=
  modifyEntry k (asArrayEdit (fun xs => addStringsIfAbsent xs toAdd))
    (ensureEntry k (.arr []) es)

/-- The value `dynamic` is set to: a one-element array holding the string
`"version"` (uvinit.rs:83-84). -/
def dynamicValue : Item := .arr [.str "version"]

/-- The body of step 1 on the `project` table (uvinit.rs:83-95): insert
`dynamic = ["version"]`, sort with the `dynLess` comparator, remove
`version`. -/
def projectEdit (es : List (String × Item)) : List (String × Item) :=
  removeEntry "version" (sortValuesBy dynLess (insertEntry "dynamic" dynamicValue es))

/-- Step 1 (uvinit.rs:79-98): replace `project.version` with
`project.dynamic = ["version"]`, gated by `enable_dynamic_version`. -/
def step1 (cfg : UvinitConfig) (d : Doc) : Doc :=
  if cfg.enable_dynamic_version then
    modifyEntry "project" (asTableEdit projectEdit) d
  else d

/-- The strings step 2 appends to `build-system.requires`
(uvinit.rs:102-110): `hatch-vcs` first when the flag is set, then
`additional_requires` in order. -/
def requiresToAdd (cfg : UvinitConfig) : List String :=
  (if cfg.add_hatch_vcs then ["hatch-vcs"] else []) ++ cfg.additional_requires

/-- Step 2 (uvinit.rs:100-129): append to `build-system.requires`, gated
by `add_hatch_vcs || !additional_requires.is_empty()`; the `requires`
array is created (`entry`/`or_insert`) only when `build-system` already
exists as a table — an absent `build-system` is never created. -/
def step2 (cfg : UvinitConfig) (d : Doc) : Doc :=
  if cfg.add_hatch_vcs || !cfg.additional_requires.isEmpty then
    modifyEntry "build-system"
      (asTableEdit (entryArrayAdd "requires" (requiresToAdd cfg))) d
  else d

/-- The `hatch.version` part of step 3: ensure a `version` table,
mark it implicit, set `source = "vcs"` (uvinit.rs:147-156). -/
def hatchVersionEdit (hs : List (String × Item)) : List (String × Item) :=
  modifyEntry "version" (asTableImpEdit (insertEntry "source" (.str "vcs")))
    (ensureEntry "version" (.tbl false []) hs)

/-- The `tool.hatch` part of step 3: ensure a `hatch` table, mark it
implicit, recurse into `version` (uvinit.rs:140-158). -/
def toolHatchEdit (es : List (String × Item)) : List (String × Item) :=
  modifyEntry "hatch" (asTableImpEdit hatchVersionEdit)
    (ensureEntry "hatch" (.tbl false []) es)

/-- Step 3 (uvinit.rs:131-161): `tool.hatch.version.source = "vcs"`,
gated by `enable_dynamic_version`; `tool` is created at the root when
absent and marked implicit. -/
def step3 (cfg : UvinitConfig) (d : Doc) : Doc :=
  if cfg.enable_dynamic_version then
    modifyEntry "tool" (asTableImpEdit toolHatchEdit)
      (ensureEntry "tool" (.tbl false []) d)
  else d

/-- The `pytest.ini_options` part of step 4 (uvinit.rs:179-188). -/
def pytestIniEdit (ps : List (String × Item)) : List (String × Item) :=
  modifyEntry "ini_options" (asTableImpEdit (insertEntry "asyncio_mode" (.str "auto")))
    (ensureEntry "ini_options" (.tbl false []) ps)

/-- The `tool.pytest` part of step 4 (uvinit.rs:172-190). -/
def toolPytestEdit (es : List (String × Item)) : List (String × Item) :=
  modifyEntry "pytest" (asTableImpEdit pytestIniEdit)
    (ensureEntry "pytest" (.tbl false []) es)

/-- Step 4 (uvinit.rs:163-193): `tool.pytest.ini_options.asyncio_mode =
"auto"`, gated by `enable_pytest_asyncio`. -/
def step4 (cfg : UvinitConfig) (d : Doc) : Doc :=
  if cfg.enable_pytest_asyncio then
    modifyEntry "tool" (asTableImpEdit toolPytestEdit)
      (ensureEntry "tool" (.tbl false []) d)
  else d

/-- The `tool.bandit` table edit of step 5 (uvinit.rs:210-242): append
`"B101"` to `skips` and `".venv"`, `"venv"`, `"tests"` to `exclude_dirs`,
each only when absent, creating either array when missing.  Note the code
does not call `set_implicit` on the `bandit` table itself. -/
def banditEdit (bs : List (String × Item)) : List (String × Item) :=
  entryArrayAdd "exclude_dirs" [".venv", "venv", "tests"]
    (entryArrayAdd "skips" ["B101"] bs)

/-- The `tool.bandit` part of step 5 (uvinit.rs:204-244). -/
def toolBanditEdit (es : List (String × Item)) : List (String × Item) :=
  modifyEntry "bandit" (asTableEdit banditEdit)
    (ensureEntry "bandit" (.tbl false []) es)

/-- Step 5 (uvinit.rs:195-247): the bandit defaults, gated by
`enable_bandit`. -/
def step5 (cfg : UvinitConfig) (d : Doc) : Doc :=
  if cfg.enable_bandit then
    modifyEntry "tool" (asTableImpEdit toolBanditEdit)
      (ensureEntry "tool" (.tbl false []) d)
  else d

/-- `modify_pyproject_toml` (uvinit.rs:69-253) on the parsed document:
the five conditional edits in their fixed order.  Reading, parsing and
writing the file back are handled by `modify_pyproject_str` below. -/
def modify_pyproject_toml (cfg : UvinitConfig) (d : Doc) : Doc :=
  step5 cfg (step4 cfg (step3 cfg (step2 cfg (step1 cfg d))))

/-- The file-level transform: parse the file's bytes, run the document
edits, serialize.  `parse`/`ser` stand for `toml_edit`'s
`str::parse::<DocumentMut>` and `DocumentMut::to_string`; `none` is a
parse failure (the transform's per-file error). -/
def modify_pyproject_str (parse : String → Option Doc) (ser : Doc → String)
    (cfg : UvinitConfig) (s : String) : Option String :=
  (parse s).map (fun d => ser (modify_pyproject_toml cfg d))

/-! ### The directory walker (uvinit.rs:14-48)

A directory tree is modelled as a finitely-branching tree whose nodes are
plain files or directories; paths are lists of name components relative to
the walk's root (the root's own path is left implicit, matching the fact
that the Rust code returns `root.join(...)` paths).  Symlinks and IO
failures are outside the model, as in the spec's stated limitations. -/

inductive FSTree where
  | file (name : String)
  | dir (name : String) (children : List FSTree)
deriving Repr

def FSTree.name : FSTree → String
  | .file n => n
  | .dir n _ => n

mutual

/-- `find_pyproject_files_recursive` (uvinit.rs:20-48): called on a
non-directory it returns nothing; on a directory it scans the entries. -/
def find_pyproject_files_recursive (skip : List String) (acc : List String) :
    FSTree → List (List String)
  | .file _ => []
  | .dir _ cs => findInEntries skip acc cs

/-- The `for entry in entries` loop (uvinit.rs:32-45): a file entry is
collected iff its name is `pyproject.toml`; a directory entry is entered
iff its name is not in `skip_dirs` (exact, case-sensitive string match). -/
def findInEntries (skip : List String) (acc : List String) :
    List FSTree → List (List String)
  | [] => []
  | c :: rest =>
    (match c with
     | .file n => if n = "pyproject.toml" then [acc ++ [n]] else []
     | .dir dn cs' =>
       if dn ∈ skip then []
       else find_pyproject_files_recursive skip (acc ++ [dn]) (.dir dn cs'))
    ++ findInEntries skip acc rest

end

/-- `find_pyproject_files` (uvinit.rs:14-18): the walk from the root. -/
def find_pyproject_files (skip : List String) (root : FSTree) : List (List String) :=
  find_pyproject_files_recursive skip [] root

mutual

/-- Specification-side predicate: the tree has a plain file at path `p`
(each component resolving through a directory child of that name). -/
def existsFileAt : FSTree → List String → Bool
  | .file _, _ => false
  | .dir _ cs, p => existsEntryAt cs p

def existsEntryAt : List FSTree → List String → Bool
  | [], _ => false
  | c :: rest, p =>
    (match c, p with
     | .file m, [n] => decide (m = n)
     | .dir dn cs', d :: q => decide (dn = d) && existsFileAt (.dir dn cs') q
     | _, _ => false)
    || existsEntryAt rest p

end

/-- Specification-side predicate on a path: nonempty, the final component
(the file name) is `pyproject.toml`, and no directory component along the
way lies in the exclusion set. -/
def goodPath (skip : List String) : List String → Bool
  | [] => false
  | [n] => decide (n = "pyproject.toml")
  | d :: q₁ :: q₂ => decide (d ∉ skip) && goodPath skip (q₁ :: q₂)

mutual

/-- Well-formedness of the modelled tree: within any directory, entry
names are pairwise distinct (true of every real directory). -/
def WfFS : FSTree → Bool
  | .file _ => true
  | .dir _ cs => WfEntries cs

def WfEntries : List FSTree → Bool
  | [] => true
  | c :: rest =>
    decide (c.name ∉ rest.map FSTree.name) && WfFS c && WfEntries rest

end

/-! ### The orchestrator `run_uvinit` (uvinit.rs:255-325) and `main`
(main.rs:52-71)

The effectful collaborators are passed in as values: the config-load
result, the walker result, the per-file detector and transformer results,
and the confirmation line read from stdin.  `main` forwards `run_uvinit`'s
`anyhow::Result` with `?`, so the process exit status is success exactly
when the returned `result` is `ok`. -/

structure RunTrace where
  /-- The `Result<()>` returned by `run_uvinit` (hence the exit status). -/
  result : Except String Unit
  /-- The files `modify_pyproject_toml` was invoked on (the Apply phase). -/
  transformed : List String

/-- `str::trim`: strip whitespace from both ends.  The confirmation line
is modelled as its character sequence (`List Char`), which is what Rust's
`String` is; whitespace is `Char.isWhitespace` (Rust trims full Unicode
whitespace, which agrees on every ASCII line). -/
def rustTrim (l : List Char) : List Char :=
  ((l.dropWhile Char.isWhitespace).reverse.dropWhile Char.isWhitespace).reverse

/-- The confirmation test at uvinit.rs:304:
`input.trim().to_lowercase().starts_with('y')` — trim the line, lowercase
it, and test whether its first character is `y`. -/
def acceptsLine (line : List Char) : Bool :=
  match (rustTrim line).map Char.toLower with
  | c :: _ => c = 'y'
  | [] => false

/-- `run_uvinit` (uvinit.rs:255-325): load config (`?`), walk (`?`),
report and return `Ok` when nothing was found; filter with the detector
(errors are printed and the file excluded); return `Ok` when nothing needs
processing; unless `yes`, read one line and cancel (`Ok`) when it is not
accepted (a failed stdin read propagates with `?`); finally transform each
queued file, printing per-file success or failure, and return `Ok(())`
unconditionally. -/
def run_uvinit (cfgLoad : Except String UvinitConfig)
    (walk : Except String (List String))
    (det : String → Except String Bool)
    (tr : String → Except String Unit)
    (yes : Bool) (stdinLine : Except String (List Char)) : RunTrace :=
  match cfgLoad with
  | .error e => ⟨.error e, []⟩
  | .ok _ =>
    match walk with
    | .error e => ⟨.error e, []⟩
    | .ok files =>
      if files.isEmpty then ⟨.ok (), []⟩
      else
        let toProcess := files.filter (fun f =>
          match det f with
          | .ok false => true
          | _ => false)
        if toProcess.isEmpty then ⟨.ok (), []⟩
        else
          match (if yes then Except.ok true else stdinLine.map acceptsLine) with
          | .error e => ⟨.error e, []⟩
          | .ok false => ⟨.ok (), []⟩
          | .ok true =>
            let _outcomes := toProcess.map tr
            ⟨.ok (), toProcess⟩

/-- Precondition of the amended idempotence claim: the manifest's
`project` section, when present as a table, has pairwise-distinct keys
(guaranteed for parsed TOML) and no `version` key. -/
def projectVersionFree (d : Doc) : Bool :=
  match getEntry "project" d with
  | some (.tbl _ es) => !containsKey "version" es && decide ((es.map Prod.fst).Nodup)
  | _ => true

/-- Observation used to separate documents: the key order of the
`project` table. -/
def projectKeys (d : Doc) : Option (List String) :=
  (getEntry "project" d).map (fun it =>
    match it with
    | .tbl _ es => es.map Prod.fst
    | _ => [])

/-! ## Lemmas about the table operations -/

theorem getEntry_modifyEntry_self (k : String) (f : Item → Item)
    (l : List (String × Item)) :
    getEntry k (modifyEntry k f l) = (getEntry k l).map f := by
  induction l with
  | nil => rfl
  | cons e rest ih =>
    obtain ⟨k₀, v₀⟩ := e
    by_cases hk : k₀ = k
    · simp [modifyEntry, getEntry, hk]
    · simp [modifyEntry, getEntry, hk, ih]

theorem getEntry_modifyEntry_ne (k k' : String) (f : Item → Item)
    (l : List (String × Item)) (h : k ≠ k') :
    getEntry k (modifyEntry k' f l) = getEntry k l := by
  induction l with
  | nil => rfl
  | cons e rest ih =>
    obtain ⟨k₀, v₀⟩ := e
    by_cases hk : k₀ = k'
    · subst hk
      simp [modifyEntry, getEntry, Ne.symm h]
    · by_cases hk2 : k₀ = k
      · simp [modifyEntry, getEntry, hk, hk2, h]
      · simp [modifyEntry, getEntry, hk, hk2, ih]

theorem containsKey_modifyEntry (k k' : String) (f : Item → Item)
    (l : List (String × Item)) :
    containsKey k (modifyEntry k' f l) = containsKey k l := by
  by_cases h : k = k'
  · subst h
    simp [containsKey, getEntry_modifyEntry_self]
  · simp [containsKey, getEntry_modifyEntry_ne k k' f l h]

theorem getEntry_append (k : String) (l₁ l₂ : List (String × Item)) :
    getEntry k (l₁ ++ l₂)
      = match getEntry k l₁ with
        | some v => some v
        | none => getEntry k l₂ := by
  induction l₁ with
  | nil => simp [getEntry]
  | cons e rest ih =>
    obtain ⟨k₀, v₀⟩ := e
    by_cases hk : k₀ = k
    · simp [getEntry, hk]
    · simp [getEntry, hk, ih]

theorem getEntry_ensureEntry_ne (k k' : String) (v : Item)
    (l : List (String × Item)) (h : k ≠ k') :
    getEntry k (ensureEntry k' v l) = getEntry k l := by
  unfold ensureEntry
  by_cases hc : containsKey k' l = true
  · simp [hc]
  · have h1 : getEntry k [(k', v)] = none := by
      simp [getEntry, Ne.symm h]
    rw [if_neg hc, getEntry_append]
    cases hg : getEntry k l <;> simp [hg, h1]

theorem getEntry_ensureEntry_self (k : String) (v : Item)
    (l : List (String × Item)) :
    getEntry k (ensureEntry k v l) = some ((getEntry k l).getD v) := by
  unfold ensureEntry
  cases hg : getEntry k l with
  | some w => simp [containsKey, hg]
  | none =>
    have hc : ¬ (containsKey k l = true) := by simp [containsKey, hg]
    rw [if_neg hc, getEntry_append, hg]
    simp [getEntry]

theorem containsKey_ensureEntry_self (k : String) (v : Item)
    (l : List (String × Item)) :
    containsKey k (ensureEntry k v l) = true := by
  simp [containsKey, getEntry_ensureEntry_self]

theorem containsKey_ensureEntry_mono (k k' : String) (v : Item)
    (l : List (String × Item)) (h : containsKey k l = true) :
    containsKey k (ensureEntry k' v l) = true := by
  by_cases hk : k = k'
  · subst hk; exact containsKey_ensureEntry_self k v l
  · simpa [containsKey, getEntry_ensureEntry_ne k k' v l hk] using h

theorem ensureEntry_of_contains (k : String) (v : Item)
    (l : List (String × Item)) (h : containsKey k l = true) :
    ensureEntry k v l = l := by
  simp [ensureEntry, h]

theorem modifyEntry_congr (k : String) (f g : Item → Item)
    (l : List (String × Item)) (h : ∀ v, f v = g v) :
    modifyEntry k f l = modifyEntry k g l := by
  induction l with
  | nil => rfl
  | cons e rest ih =>
    obtain ⟨k₀, v₀⟩ := e
    by_cases hk : k₀ = k
    · simp [modifyEntry, hk, h v₀]
    · simp [modifyEntry, hk, ih]

theorem modifyEntry_modifyEntry (k : String) (f g : Item → Item)
    (l : List (String × Item)) :
    modifyEntry k g (modifyEntry k f l) = modifyEntry k (fun v => g (f v)) l := by
  induction l with
  | nil => rfl
  | cons e rest ih =>
    obtain ⟨k₀, v₀⟩ := e
    by_cases hk : k₀ = k
    · simp [modifyEntry, hk]
    · simp [modifyEntry, hk, ih]

theorem modifyEntry_fix (k : String) (f : Item → Item)
    (l : List (String × Item)) (h : ∀ v, getEntry k l = some v → f v = v) :
    modifyEntry k f l = l := by
  induction l with
  | nil => rfl
  | cons e rest ih =>
    obtain ⟨k₀, v₀⟩ := e
    by_cases hk : k₀ = k
    · have hv : f v₀ = v₀ := h v₀ (by simp [getEntry, hk])
      simp [modifyEntry, hk, hv]
    · have : ∀ v, getEntry k rest = some v → f v = v := by
        intro v hv
        exact h v (by simpa [getEntry, hk] using hv)
      simp [modifyEntry, hk, ih this]

theorem getEntry_insertEntry_self (k : String) (v : Item)
    (l : List (String × Item)) :
    getEntry k (insertEntry k v l) = some v := by
  induction l with
  | nil => simp [insertEntry, getEntry]
  | cons e rest ih =>
    obtain ⟨k₀, v₀⟩ := e
    by_cases hk : k₀ = k
    · simp [insertEntry, getEntry, hk]
    · simp [insertEntry, getEntry, hk, ih]

theorem insertEntry_idem (k : String) (v : Item) (l : List (String × Item)) :
    insertEntry k v (insertEntry k v l) = insertEntry k v l := by
  induction l with
  | nil => simp [insertEntry]
  | cons e rest ih =>
    obtain ⟨k₀, v₀⟩ := e
    by_cases hk : k₀ = k
    · simp [insertEntry, hk]
    · simp [insertEntry, hk, ih]

theorem getEntry_eq_none_iff (k : String) (l : List (String × Item)) :
    getEntry k l = none ↔ ∀ e ∈ l, e.1 ≠ k := by
  induction l with
  | nil => simp [getEntry]
  | cons e rest ih =>
    obtain ⟨k₀, v₀⟩ := e
    by_cases hk : k₀ = k
    · simp [getEntry, hk]
    · simp [getEntry, hk, ih]

theorem removeEntry_of_not_contains (k : String) (l : List (String × Item))
    (h : containsKey k l = false) :
    removeEntry k l = l := by
  induction l with
  | nil => rfl
  | cons e rest ih =>
    obtain ⟨k₀, v₀⟩ := e
    by_cases hk : k₀ = k
    · simp [containsKey, getEntry, hk] at h
    · have hr : containsKey k rest = false := by
        simpa [containsKey, getEntry, hk] using h
      simp [removeEntry, hk, ih hr]

theorem getEntry_removeEntry_ne (k k' : String) (l : List (String × Item))
    (h : k ≠ k') :
    getEntry k (removeEntry k' l) = getEntry k l := by
  induction l with
  | nil => rfl
  | cons e rest ih =>
    obtain ⟨k₀, v₀⟩ := e
    by_cases hk : k₀ = k'
    · subst hk
      simp [removeEntry, getEntry, Ne.symm h]
    · by_cases hk2 : k₀ = k
      · simp [removeEntry, getEntry, hk, hk2, h]
      · simp [removeEntry, getEntry, hk, hk2, ih]

/-! ## Lemmas about the conditional string appends -/

theorem addStringsIfAbsent_nil (xs : List Item) :
    addStringsIfAbsent xs [] = xs := rfl

theorem addStringsIfAbsent_cons (xs : List Item) (t : String) (rest : List String) :
    addStringsIfAbsent xs (t :: rest) = addStringsIfAbsent (addIfAbsent xs t) rest := rfl

theorem addIfAbsent_of_present (xs : List Item) (s : String)
    (h : hasStr xs s = true) : addIfAbsent xs s = xs := by
  simp [addIfAbsent, h]

theorem hasStr_addIfAbsent_mono (xs : List Item) (s t : String)
    (h : hasStr xs s = true) : hasStr (addIfAbsent xs t) s = true := by
  unfold addIfAbsent
  by_cases ht : hasStr xs t = true
  · simp [ht, h]
  · rw [if_neg ht]
    unfold hasStr at h ⊢
    rw [List.any_append, h, Bool.true_or]

theorem hasStr_addIfAbsent_self (xs : List Item) (s : String) :
    hasStr (addIfAbsent xs s) s = true := by
  unfold addIfAbsent
  by_cases hs : hasStr xs s = true
  · simp [hs]
  · rw [if_neg hs]
    unfold hasStr
    rw [List.any_append]
    simp [Item.as_str]

theorem hasStr_addStringsIfAbsent_mono (xs : List Item) (ss : List String)
    (s : String) (h : hasStr xs s = true) :
    hasStr (addStringsIfAbsent xs ss) s = true := by
  induction ss generalizing xs with
  | nil => exact h
  | cons t rest ih =>
    rw [addStringsIfAbsent_cons]
    exact ih _ (hasStr_addIfAbsent_mono xs s t h)

theorem hasStr_addStringsIfAbsent_of_mem (xs : List Item) (ss : List String)
    (s : String) (h : s ∈ ss) :
    hasStr (addStringsIfAbsent xs ss) s = true := by
  induction ss generalizing xs with
  | nil => cases h
  | cons t rest ih =>
    rw [addStringsIfAbsent_cons]
    rcases List.mem_cons.mp h with h1 | h2
    · subst h1
      exact hasStr_addStringsIfAbsent_mono _ _ _ (hasStr_addIfAbsent_self xs s)
    · exact ih _ h2

theorem addStringsIfAbsent_of_all_present (xs : List Item) (ss : List String)
    (h : ∀ s ∈ ss, hasStr xs s = true) :
    addStringsIfAbsent xs ss = xs := by
  induction ss with
  | nil => rfl
  | cons t rest ih =>
    rw [addStringsIfAbsent_cons, addIfAbsent_of_present xs t (h t (List.mem_cons_self t rest))]
    exact ih (fun s hs => h s (List.mem_cons_of_mem t hs))

theorem addStringsIfAbsent_idem (xs : List Item) (ss : List String) :
    addStringsIfAbsent (addStringsIfAbsent xs ss) ss = addStringsIfAbsent xs ss :=
  addStringsIfAbsent_of_all_present _ _
    (fun s hs => hasStr_addStringsIfAbsent_of_mem xs ss s hs)

theorem addIfAbsent_append_form (xs : List Item) (s : String) :
    ∃ t, addIfAbsent xs s = xs ++ t := by
  unfold addIfAbsent
  by_cases h : hasStr xs s = true
  · exact ⟨[], by simp [h]⟩
  · exact ⟨[Item.str s], by rw [if_neg h]⟩

theorem addStringsIfAbsent_append_form (xs : List Item) (ss : List String) :
    ∃ t, addStringsIfAbsent xs ss = xs ++ t := by
  induction ss generalizing xs with
  | nil => exact ⟨[], by simp [addStringsIfAbsent_nil]⟩
  | cons u rest ih =>
    obtain ⟨t1, h1⟩ := addIfAbsent_append_form xs u
    obtain ⟨t2, h2⟩ := ih (addIfAbsent xs u)
    exact ⟨t1 ++ t2, by rw [addStringsIfAbsent_cons, h2, h1, List.append_assoc]⟩

/-! ## Idempotence of the ensure-then-mutate edits -/

/-- The shared shape of the nested `tool.*` edits and of `entryArrayAdd`:
ensure a key exists, then mutate its entry in place with an idempotent
item map `h`.  Re-running such an edit after further edits `f`, `g` that
do not change that key's entry is a no-op. -/
theorem modifyEnsure_fix (k : String) (w : Item) (h : Item → Item)
    (hh : ∀ v, h (h v) = h v)
    (f g : List (String × Item) → List (String × Item))
    (hf : ∀ xs, getEntry k (f xs) = getEntry k xs)
    (hg : ∀ xs, getEntry k (g xs) = getEntry k xs)
    (es : List (String × Item)) :
    modifyEntry k h (ensureEntry k w
        (g (f (modifyEntry k h (ensureEntry k w es)))))
      = g (f (modifyEntry k h (ensureEntry k w es))) := by
  set Y := modifyEntry k h (ensureEntry k w es) with hY
  have hgetY : getEntry k Y = some (h ((getEntry k es).getD w)) := by
    rw [hY, getEntry_modifyEntry_self, getEntry_ensureEntry_self]
    rfl
  have hgetZ : getEntry k (g (f Y)) = some (h ((getEntry k es).getD w)) := by
    rw [hg, hf, hgetY]
  have hc : containsKey k (g (f Y)) = true := by
    simp [containsKey, hgetZ]
  rw [ensureEntry_of_contains _ _ _ hc]
  refine modifyEntry_fix _ _ _ ?_
  intro v hv
  rw [hgetZ] at hv
  cases hv
  exact hh _

theorem asArrayEdit_idem (f : List Item → List Item)
    (hf : ∀ xs, f (f xs) = f xs) (v : Item) :
    asArrayEdit f (asArrayEdit f v) = asArrayEdit f v := by
  cases v <;> simp [asArrayEdit, hf]

theorem asTableEdit_idem (f : List (String × Item) → List (String × Item))
    (hf : ∀ es, f (f es) = f es) (v : Item) :
    asTableEdit f (asTableEdit f v) = asTableEdit f v := by
  cases v <;> simp [asTableEdit, hf]

theorem asTableImpEdit_idem (f : List (String × Item) → List (String × Item))
    (hf : ∀ es, f (f es) = f es) (v : Item) :
    asTableImpEdit f (asTableImpEdit f v) = asTableImpEdit f v := by
  cases v <;> simp [asTableImpEdit, hf]

theorem entryArrayAdd_idem (k : String) (ss : List String)
    (es : List (String × Item)) :
    entryArrayAdd k ss (entryArrayAdd k ss es) = entryArrayAdd k ss es :=
  modifyEnsure_fix k (.arr []) _
    (asArrayEdit_idem _ (fun xs => addStringsIfAbsent_idem xs ss))
    id id (fun _ => rfl) (fun _ => rfl) es

theorem getEntry_entryArrayAdd_ne (k k' : String) (ss : List String)
    (es : List (String × Item)) (h : k ≠ k') :
    getEntry k (entryArrayAdd k' ss es) = getEntry k es := by
  unfold entryArrayAdd
  rw [getEntry_modifyEntry_ne _ _ _ _ h, getEntry_ensureEntry_ne _ _ _ _ h]

theorem getEntry_hatchVersionEdit_ne (k : String) (hs : List (String × Item))
    (h : k ≠ "version") :
    getEntry k (hatchVersionEdit hs) = getEntry k hs := by
  unfold hatchVersionEdit
  rw [getEntry_modifyEntry_ne _ _ _ _ h, getEntry_ensureEntry_ne _ _ _ _ h]

theorem getEntry_toolHatchEdit_ne (k : String) (es : List (String × Item))
    (h : k ≠ "hatch") :
    getEntry k (toolHatchEdit es) = getEntry k es := by
  unfold toolHatchEdit
  rw [getEntry_modifyEntry_ne _ _ _ _ h, getEntry_ensureEntry_ne _ _ _ _ h]

theorem getEntry_toolPytestEdit_ne (k : String) (es : List (String × Item))
    (h : k ≠ "pytest") :
    getEntry k (toolPytestEdit es) = getEntry k es := by
  unfold toolPytestEdit
  rw [getEntry_modifyEntry_ne _ _ _ _ h, getEntry_ensureEntry_ne _ _ _ _ h]

theorem getEntry_toolBanditEdit_ne (k : String) (es : List (String × Item))
    (h : k ≠ "bandit") :
    getEntry k (toolBanditEdit es) = getEntry k es := by
  unfold toolBanditEdit
  rw [getEntry_modifyEntry_ne _ _ _ _ h, getEntry_ensureEntry_ne _ _ _ _ h]

theorem hatchVersionEdit_idem (hs : List (String × Item)) :
    hatchVersionEdit (hatchVersionEdit hs) = hatchVersionEdit hs :=
  modifyEnsure_fix "version" (.tbl false []) _
    (asTableImpEdit_idem _ (fun es => insertEntry_idem "source" (.str "vcs") es))
    id id (fun _ => rfl) (fun _ => rfl) hs

theorem toolHatchEdit_idem (es : List (String × Item)) :
    toolHatchEdit (toolHatchEdit es) = toolHatchEdit es :=
  modifyEnsure_fix "hatch" (.tbl false []) _
    (asTableImpEdit_idem _ hatchVersionEdit_idem)
    id id (fun _ => rfl) (fun _ => rfl) es

theorem pytestIniEdit_idem (ps : List (String × Item)) :
    pytestIniEdit (pytestIniEdit ps) = pytestIniEdit ps :=
  modifyEnsure_fix "ini_options" (.tbl false []) _
    (asTableImpEdit_idem _ (fun es => insertEntry_idem "asyncio_mode" (.str "auto") es))
    id id (fun _ => rfl) (fun _ => rfl) ps

theorem toolPytestEdit_idem (es : List (String × Item)) :
    toolPytestEdit (toolPytestEdit es) = toolPytestEdit es :=
  modifyEnsure_fix "pytest" (.tbl false []) _
    (asTableImpEdit_idem _ pytestIniEdit_idem)
    id id (fun _ => rfl) (fun _ => rfl) es

theorem banditEdit_idem (bs : List (String × Item)) :
    banditEdit (banditEdit bs) = banditEdit bs := by
  unfold banditEdit
  have h1 : entryArrayAdd "skips" ["B101"]
      (entryArrayAdd "exclude_dirs" [".venv", "venv", "tests"]
        (entryArrayAdd "skips" ["B101"] bs))
      = entryArrayAdd "exclude_dirs" [".venv", "venv", "tests"]
        (entryArrayAdd "skips" ["B101"] bs) := by
    show modifyEntry "skips" _ (ensureEntry "skips" (.arr [])
        (entryArrayAdd "exclude_dirs" [".venv", "venv", "tests"]
          (modifyEntry "skips" _ (ensureEntry "skips" (.arr []) bs)))) = _
    exact modifyEnsure_fix "skips" (.arr []) _
      (asArrayEdit_idem _ (fun xs => addStringsIfAbsent_idem xs ["B101"]))
      (entryArrayAdd "exclude_dirs" [".venv", "venv", "tests"]) id
      (fun xs => getEntry_entryArrayAdd_ne _ _ _ xs (by decide))
      (fun _ => rfl) bs
  rw [h1, entryArrayAdd_idem]

theorem toolBanditEdit_idem (es : List (String × Item)) :
    toolBanditEdit (toolBanditEdit es) = toolBanditEdit es :=
  modifyEnsure_fix "bandit" (.tbl false []) _
    (asTableEdit_idem _ banditEdit_idem)
    id id (fun _ => rfl) (fun _ => rfl) es

/-! ## Behavior of the step-1 sort -/

theorem takeWhile_of_all_false {α : Type} (f : α → Bool) (l : List α)
    (h : ∀ a ∈ l, f a = false) : l.takeWhile f = [] := by
  cases l with
  | nil => rfl
  | cons x xs => simp [List.takeWhile_cons, h x (List.mem_cons_self x xs)]

theorem dropWhile_of_all_false {α : Type} (f : α → Bool) (l : List α)
    (h : ∀ a ∈ l, f a = false) : l.dropWhile f = l := by
  cases l with
  | nil => rfl
  | cons x xs => simp [List.dropWhile_cons, h x (List.mem_cons_self x xs)]

theorem takeWhile_of_all_true {α : Type} (f : α → Bool) (l : List α)
    (h : ∀ a ∈ l, f a = true) : l.takeWhile f = l := by
  induction l with
  | nil => rfl
  | cons x xs ih =>
    simp [List.takeWhile_cons, h x (List.mem_cons_self x xs),
      ih (fun a ha => h a (List.mem_cons_of_mem x ha))]

theorem dropWhile_of_all_true {α : Type} (f : α → Bool) (l : List α)
    (h : ∀ a ∈ l, f a = true) : l.dropWhile f = [] := by
  induction l with
  | nil => rfl
  | cons x xs ih =>
    simp [List.dropWhile_cons, h x (List.mem_cons_self x xs),
      ih (fun a ha => h a (List.mem_cons_of_mem x ha))]

/-- An element never comparing `Less` against anything is appended at the
end by an insertion step (it does not move left). -/
theorem insertShift_append (less : (String × Item) → (String × Item) → Bool)
    (l : List (String × Item)) (e : String × Item)
    (he : ∀ p ∈ l, less e p = false) :
    insertShift less l e = l ++ [e] := by
  unfold insertShift
  rw [takeWhile_of_all_false _ _ (fun a ha => he a (List.mem_reverse.mp ha)),
    dropWhile_of_all_false _ _ (fun a ha => he a (List.mem_reverse.mp ha)),
    List.reverse_reverse]
  rfl

/-- An element comparing `Less` against every current element is shifted
all the way to the front by an insertion step. -/
theorem insertShift_front (less : (String × Item) → (String × Item) → Bool)
    (l : List (String × Item)) (e : String × Item)
    (he : ∀ p ∈ l, less e p = true) :
    insertShift less l e = e :: l := by
  unfold insertShift
  rw [takeWhile_of_all_true _ _ (fun a ha => he a (List.mem_reverse.mp ha)),
    dropWhile_of_all_true _ _ (fun a ha => he a (List.mem_reverse.mp ha)),
    List.reverse_reverse]
  rfl

/-- Entries whose key is not `dynamic` are never moved by the step-1
comparator: folding them in just appends them in order. -/
theorem foldl_insertShift_nondyn (l acc : List (String × Item))
    (h : ∀ e ∈ l, e.1 ≠ "dynamic") :
    List.foldl (insertShift dynLess) acc l = acc ++ l := by
  induction l generalizing acc with
  | nil => simp
  | cons e rest ih =>
    have he : ∀ p ∈ acc, dynLess e p = false := by
      intro p _
      simp [dynLess, h e (List.mem_cons_self e rest)]
    rw [List.foldl_cons, insertShift_append _ _ _ he,
      ih (acc ++ [e]) (fun x hx => h x (List.mem_cons_of_mem e hx))]
    simp

/-- Exact effect of the step-1 sort on a table containing one `dynamic`
entry and no `version` entry before it: `dynamic` moves to the front and
every other entry keeps its relative order. -/
theorem sortValuesBy_spec (A B : List (String × Item)) (v : Item)
    (hA : ∀ e ∈ A, e.1 ≠ "dynamic" ∧ e.1 ≠ "version")
    (hB : ∀ e ∈ B, e.1 ≠ "dynamic") :
    sortValuesBy dynLess (A ++ ("dynamic", v) :: B) = ("dynamic", v) :: (A ++ B) := by
  unfold sortValuesBy
  rw [List.foldl_append, foldl_insertShift_nondyn A [] (fun e he => (hA e he).1),
    List.nil_append, List.foldl_cons,
    insertShift_front _ _ _ (by
      intro p hp
      simp [dynLess, (hA p hp).2]),
    foldl_insertShift_nondyn B (("dynamic", v) :: A) hB]
  rfl

/-- Each insertion step permutes; it inserts exactly the new element. -/
theorem insertShift_perm (less : (String × Item) → (String × Item) → Bool)
    (l : List (String × Item)) (e : String × Item) :
    (insertShift less l e).Perm (e :: l) := by
  unfold insertShift
  have hsplit : (l.reverse.dropWhile (fun p => less e p)).reverse
      ++ (l.reverse.takeWhile (fun p => less e p)).reverse = l := by
    rw [← List.reverse_append, List.takeWhile_append_dropWhile, List.reverse_reverse]
  have hmid := @List.perm_middle _ e
    ((l.reverse.dropWhile (fun p => less e p)).reverse)
    ((l.reverse.takeWhile (fun p => less e p)).reverse)
  rw [hsplit] at hmid
  exact hmid

theorem foldl_insertShift_perm (less : (String × Item) → (String × Item) → Bool)
    (l acc : List (String × Item)) :
    (List.foldl (insertShift less) acc l).Perm (acc ++ l) := by
  induction l generalizing acc with
  | nil => simp
  | cons e rest ih =>
    rw [List.foldl_cons]
    refine (ih _).trans ?_
    refine (((insertShift_perm less acc e).append_right rest).trans ?_)
    exact List.perm_middle.symm

/-- The step-1 sort permutes the table's entries. -/
theorem sortValuesBy_perm (less : (String × Item) → (String × Item) → Bool)
    (l : List (String × Item)) :
    (sortValuesBy less l).Perm l := by
  simpa using foldl_insertShift_perm less l []

/-! ## The step-1 `project` edit -/

theorem containsKey_eq_false_iff (k : String) (l : List (String × Item)) :
    containsKey k l = false ↔ ∀ e ∈ l, e.1 ≠ k := by
  rw [← getEntry_eq_none_iff]
  unfold containsKey
  cases hg : getEntry k l <;> simp [hg]

/-- If filtering a table by a key keeps exactly one pair, `getEntry` finds
that pair's value. -/
theorem getEntry_of_filter_singleton (k : String) (v : Item)
    (l : List (String × Item))
    (h : l.filter (fun e => decide (e.1 = k)) = [(k, v)]) :
    getEntry k l = some v := by
  induction l with
  | nil => simp at h
  | cons e rest ih =>
    obtain ⟨k0, v0⟩ := e
    rw [List.filter_cons] at h
    by_cases hk : k0 = k
    · subst hk
      simp at h
      simp [getEntry, h.1]
    · have hd : ¬ (decide ((k0, v0).1 = k) = true) := by simp [hk]
      rw [if_neg hd] at h
      simp [getEntry, hk, ih h]

theorem filter_dyn_of_split (A B : List (String × Item)) (v : Item)
    (hA : ∀ e ∈ A, e.1 ≠ "dynamic") (hB : ∀ e ∈ B, e.1 ≠ "dynamic") :
    (A ++ ("dynamic", v) :: B).filter (fun e => decide (e.1 = "dynamic"))
      = [("dynamic", v)] := by
  have h1 : A.filter (fun e => decide (e.1 = "dynamic")) = [] := by
    rw [List.filter_eq_nil_iff]
    intro e he
    simp [hA e he]
  have h2 : B.filter (fun e => decide (e.1 = "dynamic")) = [] := by
    rw [List.filter_eq_nil_iff]
    intro e he
    simp [hB e he]
  rw [List.filter_append, h1, List.filter_cons]
  simp [h2]

/-- `Table::insert` as a split: the result is the untouched entries before
the key (none of which carry the key), the freshly set pair, and the
entries after it (key-free too when the table's keys are distinct). -/
theorem insertEntry_split (k : String) (v : Item) (es : List (String × Item)) :
    ∃ A B, insertEntry k v es = A ++ (k, v) :: B
      ∧ (∀ e ∈ A, e ∈ es ∧ e.1 ≠ k)
      ∧ (∀ e ∈ B, e ∈ es)
      ∧ ((es.map Prod.fst).Nodup → ∀ e ∈ B, e.1 ≠ k) := by
  induction es with
  | nil =>
    refine ⟨[], [], by simp [insertEntry], by simp, by simp, by simp⟩
  | cons e rest ih =>
    obtain ⟨k0, v0⟩ := e
    by_cases hk : k0 = k
    · subst hk
      refine ⟨[], rest, by simp [insertEntry], by simp, ?_, ?_⟩
      · intro e he
        exact List.mem_cons_of_mem _ he
      · intro hnd e he hek
        rw [List.map_cons, List.nodup_cons] at hnd
        exact hnd.1 (hek ▸ List.mem_map.mpr ⟨e, he, rfl⟩)
    · obtain ⟨A, B, h1, h2, h3, h4⟩ := ih
      refine ⟨(k0, v0) :: A, B, by simp [insertEntry, hk, h1], ?_, ?_, ?_⟩
      · intro e he
        rcases List.mem_cons.mp he with rfl | hA
        · exact ⟨List.mem_cons_self _ _, hk⟩
        · obtain ⟨he1, he2⟩ := h2 e hA
          exact ⟨List.mem_cons_of_mem _ he1, he2⟩
      · intro e he
        exact List.mem_cons_of_mem _ (h3 e he)
      · intro hnd
        rw [List.map_cons, List.nodup_cons] at hnd
        exact h4 hnd.2

/-- On a table with distinct keys, step 1's edit always leaves `dynamic`
bound to exactly `["version"]` (the previous binding, if any, is
discarded). -/
theorem getEntry_dynamic_projectEdit (es : List (String × Item))
    (hnd : (es.map Prod.fst).Nodup) :
    getEntry "dynamic" (projectEdit es) = some dynamicValue := by
  obtain ⟨A, B, h1, h2, h3, h4⟩ := insertEntry_split "dynamic" dynamicValue es
  have hfilter : (insertEntry "dynamic" dynamicValue es).filter
      (fun e => decide (e.1 = "dynamic")) = [("dynamic", dynamicValue)] := by
    rw [h1]
    exact filter_dyn_of_split A B dynamicValue (fun e he => (h2 e he).2) (h4 hnd)
  have hperm := (sortValuesBy_perm dynLess (insertEntry "dynamic" dynamicValue es)).filter
    (fun e => decide (e.1 = "dynamic"))
  rw [hfilter] at hperm
  have hsorted := getEntry_of_filter_singleton "dynamic" dynamicValue _
    (List.perm_singleton.mp hperm)
  unfold projectEdit
  rw [getEntry_removeEntry_ne _ _ _ (by decide), hsorted]

/-- Exact shape of step 1's edit on a `version`-free table with distinct
keys: `dynamic` is bound to `["version"]` at the front, everything else
keeps its order and is neither `dynamic` nor `version`. -/
theorem projectEdit_shape (es : List (String × Item))
    (hv : containsKey "version" es = false)
    (hnd : (es.map Prod.fst).Nodup) :
    ∃ C, projectEdit es = ("dynamic", dynamicValue) :: C
      ∧ (∀ e ∈ C, e.1 ≠ "dynamic" ∧ e.1 ≠ "version") := by
  obtain ⟨A, B, h1, h2, h3, h4⟩ := insertEntry_split "dynamic" dynamicValue es
  have hvs : ∀ e ∈ es, e.1 ≠ "version" := (containsKey_eq_false_iff _ _).mp hv
  have hA : ∀ e ∈ A, e.1 ≠ "dynamic" ∧ e.1 ≠ "version" :=
    fun e he => ⟨(h2 e he).2, hvs e (h2 e he).1⟩
  have hB : ∀ e ∈ B, e.1 ≠ "dynamic" := h4 hnd
  unfold projectEdit
  rw [h1, sortValuesBy_spec A B dynamicValue hA hB]
  have hprop : ∀ e ∈ A ++ B, e.1 ≠ "dynamic" ∧ e.1 ≠ "version" := by
    intro e he
    rcases List.mem_append.mp he with h | h
    · exact hA e h
    · exact ⟨hB e h, hvs e (h3 e h)⟩
  have hver : containsKey "version" (("dynamic", dynamicValue) :: (A ++ B)) = false := by
    rw [containsKey_eq_false_iff]
    intro e he
    rcases List.mem_cons.mp he with rfl | hab
    · decide
    · exact (hprop e hab).2
  rw [removeEntry_of_not_contains _ _ hver]
  exact ⟨A ++ B, rfl, hprop⟩

/-- Step 1's edit is idempotent on `version`-free tables with distinct
keys (`dynamic` is already at the front, so the re-sort cannot move it). -/
theorem projectEdit_idem (es : List (String × Item))
    (hv : containsKey "version" es = false)
    (hnd : (es.map Prod.fst).Nodup) :
    projectEdit (projectEdit es) = projectEdit es := by
  obtain ⟨C, hC, hCprop⟩ := projectEdit_shape es hv hnd
  rw [hC]
  unfold projectEdit
  have hins : insertEntry "dynamic" dynamicValue (("dynamic", dynamicValue) :: C)
      = ("dynamic", dynamicValue) :: C := by
    simp [insertEntry]
  rw [hins]
  have hsort := sortValuesBy_spec [] C dynamicValue (by simp)
    (fun e he => (hCprop e he).1)
  rw [List.nil_append] at hsort
  rw [hsort, List.nil_append]
  have hver : containsKey "version" (("dynamic", dynamicValue) :: C) = false := by
    rw [containsKey_eq_false_iff]
    intro e he
    rcases List.mem_cons.mp he with rfl | hc
    · decide
    · exact (hCprop e hc).2
  rw [removeEntry_of_not_contains _ _ hver]

/-! ## Step-level lemmas -/

theorem step1_off (cfg : UvinitConfig) (d : Doc)
    (h : cfg.enable_dynamic_version = false) : step1 cfg d = d := by
  simp [step1, h]

theorem step1_eq (cfg : UvinitConfig) (d : Doc)
    (h : cfg.enable_dynamic_version = true) :
    step1 cfg d = modifyEntry "project" (asTableEdit projectEdit) d := by
  simp [step1, h]

theorem step2_off (cfg : UvinitConfig) (d : Doc)
    (h : (cfg.add_hatch_vcs || !cfg.additional_requires.isEmpty) = false) :
    step2 cfg d = d := by
  simp only [step2, h, Bool.false_eq_true, if_false]

theorem step2_eq (cfg : UvinitConfig) (d : Doc)
    (h : (cfg.add_hatch_vcs || !cfg.additional_requires.isEmpty) = true) :
    step2 cfg d = modifyEntry "build-system"
      (asTableEdit (entryArrayAdd "requires" (requiresToAdd cfg))) d := by
  simp only [step2, h, if_true]

theorem step3_off (cfg : UvinitConfig) (d : Doc)
    (h : cfg.enable_dynamic_version = false) : step3 cfg d = d := by
  simp [step3, h]

theorem step3_eq (cfg : UvinitConfig) (d : Doc)
    (h : cfg.enable_dynamic_version = true) :
    step3 cfg d = modifyEntry "tool" (asTableImpEdit toolHatchEdit)
      (ensureEntry "tool" (.tbl false []) d) := by
  simp [step3, h]

theorem step4_off (cfg : UvinitConfig) (d : Doc)
    (h : cfg.enable_pytest_asyncio = false) : step4 cfg d = d := by
  simp [step4, h]

theorem step4_eq (cfg : UvinitConfig) (d : Doc)
    (h : cfg.enable_pytest_asyncio = true) :
    step4 cfg d = modifyEntry "tool" (asTableImpEdit toolPytestEdit)
      (ensureEntry "tool" (.tbl false []) d) := by
  simp [step4, h]

theorem step5_off (cfg : UvinitConfig) (d : Doc)
    (h : cfg.enable_bandit = false) : step5 cfg d = d := by
  simp [step5, h]

theorem step5_eq (cfg : UvinitConfig) (d : Doc)
    (h : cfg.enable_bandit = true) :
    step5 cfg d = modifyEntry "tool" (asTableImpEdit toolBanditEdit)
      (ensureEntry "tool" (.tbl false []) d) := by
  simp [step5, h]

theorem getEntry_step1_ne (cfg : UvinitConfig) (d : Doc) (k : String)
    (h : k ≠ "project") : getEntry k (step1 cfg d) = getEntry k d := by
  cases hf : cfg.enable_dynamic_version
  · rw [step1_off cfg d hf]
  · rw [step1_eq cfg d hf, getEntry_modifyEntry_ne _ _ _ _ h]

theorem getEntry_step2_ne (cfg : UvinitConfig) (d : Doc) (k : String)
    (h : k ≠ "build-system") : getEntry k (step2 cfg d) = getEntry k d := by
  cases hf : (cfg.add_hatch_vcs || !cfg.additional_requires.isEmpty)
  · rw [step2_off cfg d hf]
  · rw [step2_eq cfg d hf, getEntry_modifyEntry_ne _ _ _ _ h]

theorem getEntry_step3_ne (cfg : UvinitConfig) (d : Doc) (k : String)
    (h : k ≠ "tool") : getEntry k (step3 cfg d) = getEntry k d := by
  cases hf : cfg.enable_dynamic_version
  · rw [step3_off cfg d hf]
  · rw [step3_eq cfg d hf, getEntry_modifyEntry_ne _ _ _ _ h,
      getEntry_ensureEntry_ne _ _ _ _ h]

theorem getEntry_step4_ne (cfg : UvinitConfig) (d : Doc) (k : String)
    (h : k ≠ "tool") : getEntry k (step4 cfg d) = getEntry k d := by
  cases hf : cfg.enable_pytest_asyncio
  · rw [step4_off cfg d hf]
  · rw [step4_eq cfg d hf, getEntry_modifyEntry_ne _ _ _ _ h,
      getEntry_ensureEntry_ne _ _ _ _ h]

theorem getEntry_step5_ne (cfg : UvinitConfig) (d : Doc) (k : String)
    (h : k ≠ "tool") : getEntry k (step5 cfg d) = getEntry k d := by
  cases hf : cfg.enable_bandit
  · rw [step5_off cfg d hf]
  · rw [step5_eq cfg d hf, getEntry_modifyEntry_ne _ _ _ _ h,
      getEntry_ensureEntry_ne _ _ _ _ h]

theorem containsKey_step3_mono (cfg : UvinitConfig) (d : Doc) (k : String)
    (h : containsKey k d = true) : containsKey k (step3 cfg d) = true := by
  cases hf : cfg.enable_dynamic_version
  · rw [step3_off cfg d hf]; exact h
  · rw [step3_eq cfg d hf, containsKey_modifyEntry]
    exact containsKey_ensureEntry_mono _ _ _ _ h

theorem containsKey_step4_mono (cfg : UvinitConfig) (d : Doc) (k : String)
    (h : containsKey k d = true) : containsKey k (step4 cfg d) = true := by
  cases hf : cfg.enable_pytest_asyncio
  · rw [step4_off cfg d hf]; exact h
  · rw [step4_eq cfg d hf, containsKey_modifyEntry]
    exact containsKey_ensureEntry_mono _ _ _ _ h

theorem containsKey_step5_mono (cfg : UvinitConfig) (d : Doc) (k : String)
    (h : containsKey k d = true) : containsKey k (step5 cfg d) = true := by
  cases hf : cfg.enable_bandit
  · rw [step5_off cfg d hf]; exact h
  · rw [step5_eq cfg d hf, containsKey_modifyEntry]
    exact containsKey_ensureEntry_mono _ _ _ _ h

theorem containsKey_tool_step3 (cfg : UvinitConfig) (d : Doc)
    (hf : cfg.enable_dynamic_version = true) :
    containsKey "tool" (step3 cfg d) = true := by
  rw [step3_eq cfg d hf, containsKey_modifyEntry]
  exact containsKey_ensureEntry_self _ _ _

theorem containsKey_tool_step4 (cfg : UvinitConfig) (d : Doc)
    (hf : cfg.enable_pytest_asyncio = true) :
    containsKey "tool" (step4 cfg d) = true := by
  rw [step4_eq cfg d hf, containsKey_modifyEntry]
  exact containsKey_ensureEntry_self _ _ _

theorem containsKey_tool_step5 (cfg : UvinitConfig) (d : Doc)
    (hf : cfg.enable_bandit = true) :
    containsKey "tool" (step5 cfg d) = true := by
  rw [step5_eq cfg d hf, containsKey_modifyEntry]
  exact containsKey_ensureEntry_self _ _ _

theorem getEntry_tool_modify_ensure (G : Item → Item) (w : Item) (X : Doc)
    (hc : containsKey "tool" X = true) :
    getEntry "tool" (modifyEntry "tool" G (ensureEntry "tool" w X))
      = (getEntry "tool" X).map G := by
  rw [ensureEntry_of_contains _ _ _ hc, getEntry_modifyEntry_self]

theorem getEntry_tool_step4_cond (cfg : UvinitConfig) (X : Doc)
    (hc : containsKey "tool" X = true) :
    getEntry "tool" (step4 cfg X)
      = (getEntry "tool" X).map
          (fun v => if cfg.enable_pytest_asyncio then asTableImpEdit toolPytestEdit v else v) := by
  cases hf : cfg.enable_pytest_asyncio
  · rw [step4_off cfg X hf]
    cases hg : getEntry "tool" X <;> simp [hg, hf]
  · rw [step4_eq cfg X hf, getEntry_tool_modify_ensure _ _ _ hc]
    cases hg : getEntry "tool" X <;> simp [hg, hf]

theorem getEntry_tool_step5_cond (cfg : UvinitConfig) (X : Doc)
    (hc : containsKey "tool" X = true) :
    getEntry "tool" (step5 cfg X)
      = (getEntry "tool" X).map
          (fun v => if cfg.enable_bandit then asTableImpEdit toolBanditEdit v else v) := by
  cases hf : cfg.enable_bandit
  · rw [step5_off cfg X hf]
    cases hg : getEntry "tool" X <;> simp [hg, hf]
  · rw [step5_eq cfg X hf, getEntry_tool_modify_ensure _ _ _ hc]
    cases hg : getEntry "tool" X <;> simp [hg, hf]

theorem toolHatchEdit_fix_after
    (f g : List (String × Item) → List (String × Item))
    (hf : ∀ xs, getEntry "hatch" (f xs) = getEntry "hatch" xs)
    (hg : ∀ xs, getEntry "hatch" (g xs) = getEntry "hatch" xs)
    (es : List (String × Item)) :
    toolHatchEdit (g (f (toolHatchEdit es))) = g (f (toolHatchEdit es)) := by
  unfold toolHatchEdit
  exact modifyEnsure_fix "hatch" (.tbl false []) _
    (asTableImpEdit_idem _ hatchVersionEdit_idem) f g hf hg es

theorem toolPytestEdit_fix_after
    (f g : List (String × Item) → List (String × Item))
    (hf : ∀ xs, getEntry "pytest" (f xs) = getEntry "pytest" xs)
    (hg : ∀ xs, getEntry "pytest" (g xs) = getEntry "pytest" xs)
    (es : List (String × Item)) :
    toolPytestEdit (g (f (toolPytestEdit es))) = g (f (toolPytestEdit es)) := by
  unfold toolPytestEdit
  exact modifyEnsure_fix "pytest" (.tbl false []) _
    (asTableImpEdit_idem _ pytestIniEdit_idem) f g hf hg es

/-- Re-running the hatch edit after the (possibly disabled) pytest and
bandit edits changes nothing. -/
theorem hatch_fix_item (b4 b5 : Bool) (u : Item) :
    asTableImpEdit toolHatchEdit
        ((fun v => if b5 then asTableImpEdit toolBanditEdit v else v)
          ((fun v => if b4 then asTableImpEdit toolPytestEdit v else v)
            (asTableImpEdit toolHatchEdit u)))
      = (fun v => if b5 then asTableImpEdit toolBanditEdit v else v)
          ((fun v => if b4 then asTableImpEdit toolPytestEdit v else v)
            (asTableImpEdit toolHatchEdit u)) := by
  cases u with
  | str s => cases b4 <;> cases b5 <;> simp [asTableImpEdit]
  | arr xs => cases b4 <;> cases b5 <;> simp [asTableImpEdit]
  | other => cases b4 <;> cases b5 <;> simp [asTableImpEdit]
  | tbl imp es =>
    cases b4 <;> cases b5 <;> simp [asTableImpEdit]
    · exact toolHatchEdit_idem es
    · exact toolHatchEdit_fix_after toolBanditEdit id
        (fun xs => getEntry_toolBanditEdit_ne _ xs (by decide)) (fun _ => rfl) es
    · exact toolHatchEdit_fix_after toolPytestEdit id
        (fun xs => getEntry_toolPytestEdit_ne _ xs (by decide)) (fun _ => rfl) es
    · exact toolHatchEdit_fix_after toolPytestEdit toolBanditEdit
        (fun xs => getEntry_toolPytestEdit_ne _ xs (by decide))
        (fun xs => getEntry_toolBanditEdit_ne _ xs (by decide)) es

/-- Re-running the pytest edit after the (possibly disabled) bandit edit
changes nothing. -/
theorem pytest_fix_item (b5 : Bool) (u : Item) :
    asTableImpEdit toolPytestEdit
        ((fun v => if b5 then asTableImpEdit toolBanditEdit v else v)
          (asTableImpEdit toolPytestEdit u))
      = (fun v => if b5 then asTableImpEdit toolBanditEdit v else v)
          (asTableImpEdit toolPytestEdit u) := by
  cases u with
  | str s => cases b5 <;> simp [asTableImpEdit]
  | arr xs => cases b5 <;> simp [asTableImpEdit]
  | other => cases b5 <;> simp [asTableImpEdit]
  | tbl imp es =>
    cases b5 <;> simp [asTableImpEdit]
    · exact toolPytestEdit_idem es
    · exact toolPytestEdit_fix_after toolBanditEdit id
        (fun xs => getEntry_toolBanditEdit_ne _ xs (by decide)) (fun _ => rfl) es

/-! ## Fixed-point lemmas: re-running each step on a transformed document -/

theorem step1_fix (cfg : UvinitConfig) (d : Doc)
    (hpvf : projectVersionFree d = true) :
    step1 cfg (modify_pyproject_toml cfg d) = modify_pyproject_toml cfg d := by
  cases hf : cfg.enable_dynamic_version
  · rw [step1_off _ _ hf]
  · rw [step1_eq _ _ hf]
    apply modifyEntry_fix
    intro v hv
    have hTproj : getEntry "project" (modify_pyproject_toml cfg d)
        = (getEntry "project" d).map (asTableEdit projectEdit) := by
      unfold modify_pyproject_toml
      rw [getEntry_step5_ne _ _ _ (by decide), getEntry_step4_ne _ _ _ (by decide),
        getEntry_step3_ne _ _ _ (by decide), getEntry_step2_ne _ _ _ (by decide),
        step1_eq _ _ hf, getEntry_modifyEntry_self]
    rw [hTproj] at hv
    cases hg : getEntry "project" d with
    | none => rw [hg] at hv; exact absurd hv (by simp)
    | some v0 =>
      rw [hg] at hv
      have hv2 : some (asTableEdit projectEdit v0) = some v := hv
      cases hv2
      cases v0 with
      | str s => rfl
      | arr xs => rfl
      | other => rfl
      | tbl imp es =>
        have hfacts : containsKey "version" es = false ∧ (es.map Prod.fst).Nodup := by
          unfold projectVersionFree at hpvf
          rw [hg] at hpvf
          simpa using hpvf
        show asTableEdit projectEdit (Item.tbl imp (projectEdit es))
          = Item.tbl imp (projectEdit es)
        simp only [asTableEdit]
        rw [projectEdit_idem es hfacts.1 hfacts.2]

theorem step2_fix (cfg : UvinitConfig) (d : Doc) :
    step2 cfg (modify_pyproject_toml cfg d) = modify_pyproject_toml cfg d := by
  cases hf : (cfg.add_hatch_vcs || !cfg.additional_requires.isEmpty)
  · rw [step2_off _ _ hf]
  · rw [step2_eq _ _ hf]
    apply modifyEntry_fix
    intro v hv
    have hTbs : getEntry "build-system" (modify_pyproject_toml cfg d)
        = (getEntry "build-system" d).map
            (asTableEdit (entryArrayAdd "requires" (requiresToAdd cfg))) := by
      unfold modify_pyproject_toml
      rw [getEntry_step5_ne _ _ _ (by decide), getEntry_step4_ne _ _ _ (by decide),
        getEntry_step3_ne _ _ _ (by decide), step2_eq _ _ hf,
        getEntry_modifyEntry_self, getEntry_step1_ne _ _ _ (by decide)]
    rw [hTbs] at hv
    cases hg : getEntry "build-system" d with
    | none => rw [hg] at hv; exact absurd hv (by simp)
    | some v0 =>
      rw [hg] at hv
      have hv2 : some (asTableEdit (entryArrayAdd "requires" (requiresToAdd cfg)) v0)
          = some v := hv
      cases hv2
      exact asTableEdit_idem _
        (fun es => entryArrayAdd_idem "requires" (requiresToAdd cfg) es) v0

theorem step3_fix (cfg : UvinitConfig) (d : Doc) :
    step3 cfg (modify_pyproject_toml cfg d) = modify_pyproject_toml cfg d := by
  cases hf : cfg.enable_dynamic_version
  · rw [step3_off _ _ hf]
  · have hc3 : containsKey "tool" (step3 cfg (step2 cfg (step1 cfg d))) = true :=
      containsKey_tool_step3 _ _ hf
    have hc4 : containsKey "tool"
        (step4 cfg (step3 cfg (step2 cfg (step1 cfg d)))) = true :=
      containsKey_step4_mono _ _ _ hc3
    have hcT : containsKey "tool" (modify_pyproject_toml cfg d) = true := by
      unfold modify_pyproject_toml
      exact containsKey_step5_mono _ _ _ hc4
    rw [step3_eq _ _ hf, ensureEntry_of_contains _ _ _ hcT]
    apply modifyEntry_fix
    intro v hv
    have h3g : getEntry "tool" (step3 cfg (step2 cfg (step1 cfg d)))
        = some (asTableImpEdit toolHatchEdit
            ((getEntry "tool" (step2 cfg (step1 cfg d))).getD (.tbl false []))) := by
      rw [step3_eq _ _ hf, getEntry_modifyEntry_self, getEntry_ensureEntry_self]
      rfl
    have hT : getEntry "tool" (modify_pyproject_toml cfg d)
        = some ((fun w => if cfg.enable_bandit then asTableImpEdit toolBanditEdit w else w)
            ((fun w => if cfg.enable_pytest_asyncio then asTableImpEdit toolPytestEdit w else w)
              (asTableImpEdit toolHatchEdit
                ((getEntry "tool" (step2 cfg (step1 cfg d))).getD (.tbl false []))))) := by
      unfold modify_pyproject_toml
      rw [getEntry_tool_step5_cond _ _ hc4, getEntry_tool_step4_cond _ _ hc3, h3g]
      rfl
    rw [hT] at hv
    cases hv
    exact hatch_fix_item _ _ _

theorem step4_fix (cfg : UvinitConfig) (d : Doc) :
    step4 cfg (modify_pyproject_toml cfg d) = modify_pyproject_toml cfg d := by
  cases hf : cfg.enable_pytest_asyncio
  · rw [step4_off _ _ hf]
  · have hc4 : containsKey "tool"
        (step4 cfg (step3 cfg (step2 cfg (step1 cfg d)))) = true :=
      containsKey_tool_step4 _ _ hf
    have hcT : containsKey "tool" (modify_pyproject_toml cfg d) = true := by
      unfold modify_pyproject_toml
      exact containsKey_step5_mono _ _ _ hc4
    rw [step4_eq _ _ hf, ensureEntry_of_contains _ _ _ hcT]
    apply modifyEntry_fix
    intro v hv
    have h4g : getEntry "tool" (step4 cfg (step3 cfg (step2 cfg (step1 cfg d))))
        = some (asTableImpEdit toolPytestEdit
            ((getEntry "tool" (step3 cfg (step2 cfg (step1 cfg d)))).getD
              (.tbl false []))) := by
      rw [step4_eq _ _ hf, getEntry_modifyEntry_self, getEntry_ensureEntry_self]
      rfl
    have hT : getEntry "tool" (modify_pyproject_toml cfg d)
        = some ((fun w => if cfg.enable_bandit then asTableImpEdit toolBanditEdit w else w)
            (asTableImpEdit toolPytestEdit
              ((getEntry "tool" (step3 cfg (step2 cfg (step1 cfg d)))).getD
                (.tbl false [])))) := by
      unfold modify_pyproject_toml
      rw [getEntry_tool_step5_cond _ _ hc4, h4g]
      rfl
    rw [hT] at hv
    cases hv
    exact pytest_fix_item _ _

theorem step5_fix (cfg : UvinitConfig) (d : Doc) :
    step5 cfg (modify_pyproject_toml cfg d) = modify_pyproject_toml cfg d := by
  cases hf : cfg.enable_bandit
  · rw [step5_off _ _ hf]
  · have hcT : containsKey "tool" (modify_pyproject_toml cfg d) = true := by
      unfold modify_pyproject_toml
      exact containsKey_tool_step5 _ _ hf
    rw [step5_eq _ _ hf, ensureEntry_of_contains _ _ _ hcT]
    apply modifyEntry_fix
    intro v hv
    have hT : getEntry "tool" (modify_pyproject_toml cfg d)
        = some (asTableImpEdit toolBanditEdit
            ((getEntry "tool"
              (step4 cfg (step3 cfg (step2 cfg (step1 cfg d))))).getD
              (.tbl false []))) := by
      unfold modify_pyproject_toml
      rw [step5_eq _ _ hf, getEntry_modifyEntry_self, getEntry_ensureEntry_self]
      rfl
    rw [hT] at hv
    cases hv
    exact asTableImpEdit_idem _ toolBanditEdit_idem _

/-! ## Claim theorems -/

/-- Claim C6: `has_project_dynamic` returns true iff a top-level
`project` entry exists, is a table, and contains the key `dynamic`,
regardless of that key's value type or contents; it returns false when
`project` is absent, is not a table, or lacks the key. -/
theorem c6_has_project_dynamic_iff (d : Doc) :
    has_project_dynamic d = true
      ↔ ∃ imp es, getEntry "project" d = some (.tbl imp es)
          ∧ containsKey "dynamic" es = true := by
  unfold has_project_dynamic
  cases hg : getEntry "project" d with
  | none => simp
  | some it =>
    cases it with
    | str s => simp
    | arr xs => simp
    | other => simp
    | tbl imp es =>
      constructor
      · intro hc
        exact ⟨imp, es, rfl, hc⟩
      · rintro ⟨imp', es', he, hc⟩
        injection he with h3
        injection h3 with h4 h5
        rw [h5]
        exact hc

/-- Claim C7: a manifest with no `build-system` table is transformed
without creating one, under every configuration (the `requires` edit is
skipped entirely; the document-level transform is a total function, so
the transform also completes without error). -/
theorem c7_no_build_system_created (cfg : UvinitConfig) (d : Doc)
    (h : getEntry "build-system" d = none) :
    getEntry "build-system" (modify_pyproject_toml cfg d) = none := by
  unfold modify_pyproject_toml
  rw [getEntry_step5_ne _ _ _ (by decide), getEntry_step4_ne _ _ _ (by decide),
    getEntry_step3_ne _ _ _ (by decide)]
  have h1 : getEntry "build-system" (step1 cfg d) = none := by
    rw [getEntry_step1_ne _ _ _ (by decide)]
    exact h
  cases hf : (cfg.add_hatch_vcs || !cfg.additional_requires.isEmpty)
  · rw [step2_off _ _ hf]
    exact h1
  · rw [step2_eq _ _ hf, getEntry_modifyEntry_self, h1]
    rfl

/-- Claim C7, witness: a one-table manifest without `build-system`,
transformed with every flag enabled, still has no `build-system`. -/
theorem c7_witness :
    getEntry "build-system"
        [("project", Item.tbl false [("name", Item.str "x")])] = none
    ∧ getEntry "build-system"
        (modify_pyproject_toml ⟨[], true, true, ["setuptools-scm"], true, true⟩
          [("project", Item.tbl false [("name", Item.str "x")])]) = none :=
  ⟨rfl, c7_no_build_system_created ⟨[], true, true, ["setuptools-scm"], true, true⟩
    [("project", Item.tbl false [("name", Item.str "x")])] rfl⟩

/-- Claim C8: with all five transformation flags disabled the document
edit is the identity, so — given the round-trip fidelity of the document
library (`DocumentMut::to_string` reproduces the parsed source, stated by
the spec as a model invariant) — the rewritten file is byte-identical to
the input. -/
theorem c8_roundtrip_all_flags_off (parse : String → Option Doc)
    (ser : Doc → String) (cfg : UvinitConfig) (s : String) (d : Doc)
    (h1 : cfg.enable_dynamic_version = false)
    (h2 : cfg.add_hatch_vcs = false)
    (h3 : cfg.additional_requires = [])
    (h4 : cfg.enable_pytest_asyncio = false)
    (h5 : cfg.enable_bandit = false)
    (hparse : parse s = some d)
    (hround : ser d = s) :
    modify_pyproject_str parse ser cfg s = some s := by
  have hid : modify_pyproject_toml cfg d = d := by
    unfold modify_pyproject_toml
    rw [step5_off _ _ h5, step4_off _ _ h4, step3_off _ _ h1,
      step2_off _ _ (by rw [h2, h3]; rfl), step1_off _ _ h1]
  unfold modify_pyproject_str
  rw [hparse]
  simp [hid, hround]

/-- Claim C8, witness: a concrete parse/serialize pair satisfying
round-trip fidelity on the input, with all flags off. -/
theorem c8_witness :
    (fun (_ : Doc) => "x") ([] : Doc) = "x"
    ∧ modify_pyproject_str (fun _ => some ([] : Doc)) (fun _ => "x")
        ⟨["dist"], false, false, [], false, false⟩ "x" = some "x" :=
  ⟨rfl, c8_roundtrip_all_flags_off (fun _ => some ([] : Doc)) (fun _ => "x")
    ⟨["dist"], false, false, [], false, false⟩ "x" []
    rfl rfl rfl rfl rfl rfl rfl⟩

/-- Claim C9: a string already present (by string equality) is never
appended again — the array is unchanged, hence its length too — and the
conditional-append loops only ever extend the array at its end: the
original entries remain, in order, as its front. -/
theorem c9_no_duplication (xs : List Item) (s : String) (ss : List String)
    (h : hasStr xs s = true) :
    (addIfAbsent xs s).length = xs.length
      ∧ ∃ t, addStringsIfAbsent xs ss = xs ++ t :=
  ⟨by rw [addIfAbsent_of_present xs s h], addStringsIfAbsent_append_form xs ss⟩

/-- Claim C9, witness: appending `hatch-vcs` to an array already holding
it keeps the length; the batched appends only extend. -/
theorem c9_witness :
    hasStr [Item.str "hatchling", Item.str "hatch-vcs"] "hatch-vcs" = true
    ∧ (addIfAbsent [Item.str "hatchling", Item.str "hatch-vcs"] "hatch-vcs").length
        = ([Item.str "hatchling", Item.str "hatch-vcs"] : List Item).length
    ∧ ∃ t, addStringsIfAbsent [Item.str "hatchling", Item.str "hatch-vcs"]
        ["hatch-vcs", "setuptools-scm"]
        = [Item.str "hatchling", Item.str "hatch-vcs"] ++ t :=
  ⟨by decide,
   (c9_no_duplication _ "hatch-vcs" ["hatch-vcs", "setuptools-scm"] (by decide)).1,
   (c9_no_duplication _ "hatch-vcs" ["hatch-vcs", "setuptools-scm"] (by decide)).2⟩

/-- Claim C10: with `enable_dynamic_version` set, a manifest whose
`project` table (with pairwise-distinct keys, as parsed TOML guarantees)
already binds `dynamic` ends up with `dynamic` bound to exactly the
one-element array `["version"]`: the previous contents are discarded. -/
theorem c10_dynamic_overwritten (cfg : UvinitConfig) (d : Doc)
    (imp : Bool) (es : List (String × Item))
    (hf : cfg.enable_dynamic_version = true)
    (hg : getEntry "project" d = some (.tbl imp es))
    (hdyn : containsKey "dynamic" es = true)
    (hnd : (es.map Prod.fst).Nodup) :
    ∃ es', getEntry "project" (modify_pyproject_toml cfg d)
        = some (.tbl imp es')
      ∧ getEntry "dynamic" es' = some (Item.arr [Item.str "version"]) := by
  have hTproj : getEntry "project" (modify_pyproject_toml cfg d)
      = (getEntry "project" d).map (asTableEdit projectEdit) := by
    unfold modify_pyproject_toml
    rw [getEntry_step5_ne _ _ _ (by decide), getEntry_step4_ne _ _ _ (by decide),
      getEntry_step3_ne _ _ _ (by decide), getEntry_step2_ne _ _ _ (by decide),
      step1_eq _ _ hf, getEntry_modifyEntry_self]
  refine ⟨projectEdit es, ?_, ?_⟩
  · rw [hTproj, hg]
    rfl
  · simpa [dynamicValue] using getEntry_dynamic_projectEdit es hnd

/-- Claim C10, witness: `dynamic = ["version", "description"]` is
replaced by `["version"]`. -/
theorem c10_witness :
    ∃ es', getEntry "project" (modify_pyproject_toml
          ⟨[], false, true, [], false, false⟩
          [("project", Item.tbl false
            [("name", Item.str "t"),
             ("dynamic", Item.arr [Item.str "version", Item.str "description"])])])
        = some (.tbl false es')
      ∧ getEntry "dynamic" es' = some (Item.arr [Item.str "version"]) :=
  c10_dynamic_overwritten ⟨[], false, true, [], false, false⟩
    [("project", Item.tbl false
      [("name", Item.str "t"),
       ("dynamic", Item.arr [Item.str "version", Item.str "description"])])]
    false
    [("name", Item.str "t"),
     ("dynamic", Item.arr [Item.str "version", Item.str "description"])]
    rfl rfl (by decide) (by decide)

/-- Claim C2, counterexample: starting from `[project]` with keys
`name`, `version` (in that order) and only `enable_dynamic_version` set,
the first run produces key order `name, dynamic`, but the second run
re-sorts `dynamic` to the front (nothing blocks it once `version` is
gone): the two documents differ. -/
theorem c2_counterexample :
    modify_pyproject_toml ⟨[], false, true, [], false, false⟩
        (modify_pyproject_toml ⟨[], false, true, [], false, false⟩
          [("project", Item.tbl false
            [("name", Item.str "x"), ("version", Item.str "0.1.0")])])
      ≠ modify_pyproject_toml ⟨[], false, true, [], false, false⟩
          [("project", Item.tbl false
            [("name", Item.str "x"), ("version", Item.str "0.1.0")])] := by
  intro h
  exact absurd (congrArg projectKeys h) (by decide)

/-- Claim C2 (amended): running the transform twice with
`enable_dynamic_version=true` yields the same document on the second run
as the first for every manifest whose `project` table does not already
hold a `version` key (keys pairwise distinct, as parsed TOML
guarantees); the `version` key is already absent, `dynamic` already
present, and no duplicate insertions occur.  When `version` is present
and not the first key, the counterexample shows the second run instead
moves `dynamic` to the front of the `project` table. -/
theorem c2_idempotent_of_version_free (cfg : UvinitConfig) (d : Doc)
    (hf : cfg.enable_dynamic_version = true)
    (hpvf : projectVersionFree d = true) :
    modify_pyproject_toml cfg (modify_pyproject_toml cfg d)
      = modify_pyproject_toml cfg d := by
  have hu : modify_pyproject_toml cfg (modify_pyproject_toml cfg d)
      = step5 cfg (step4 cfg (step3 cfg (step2 cfg
          (step1 cfg (modify_pyproject_toml cfg d))))) := rfl
  rw [hu, step1_fix cfg d hpvf, step2_fix cfg d, step3_fix cfg d,
    step4_fix cfg d, step5_fix cfg d]

/-- Claim C2 (amended), witness: a `version`-free manifest, all flags
enabled: the second run reproduces the first run's document. -/
theorem c2_amended_witness :
    projectVersionFree
        [("project", Item.tbl false [("name", Item.str "x")]),
         ("build-system", Item.tbl false
           [("requires", Item.arr [Item.str "hatchling"])])] = true
    ∧ modify_pyproject_toml ⟨[], true, true, ["setuptools-scm"], true, true⟩
        (modify_pyproject_toml ⟨[], true, true, ["setuptools-scm"], true, true⟩
          [("project", Item.tbl false [("name", Item.str "x")]),
           ("build-system", Item.tbl false
             [("requires", Item.arr [Item.str "hatchling"])])])
      = modify_pyproject_toml ⟨[], true, true, ["setuptools-scm"], true, true⟩
          [("project", Item.tbl false [("name", Item.str "x")]),
           ("build-system", Item.tbl false
             [("requires", Item.arr [Item.str "hatchling"])])] :=
  ⟨by decide,
   c2_idempotent_of_version_free ⟨[], true, true, ["setuptools-scm"], true, true⟩
     [("project", Item.tbl false [("name", Item.str "x")]),
      ("build-system", Item.tbl false
        [("requires", Item.arr [Item.str "hatchling"])])]
     rfl (by decide)⟩

/-- Claim C4: the `[uvinit]` settings struct in config.rs declares only
`skip_dirs`, `add_hatch_vcs`, `enable_dynamic_version` and
`additional_requires` (with the claimed defaults), but not the two
pytest/bandit flags that uvinit.rs reads and that its tests construct:
the claimed flags and their defaults are missing from the declaration. -/
theorem c4_flags_missing_from_config :
    ("enable_pytest_asyncio" ∈ uvinitUsedFields
        ∧ "enable_pytest_asyncio" ∉ uvinitConfigDeclaredFields)
    ∧ ("enable_bandit" ∈ uvinitUsedFields
        ∧ "enable_bandit" ∉ uvinitConfigDeclaredFields)
    ∧ uvinitConfigDeclDefault.add_hatch_vcs = true
    ∧ uvinitConfigDeclDefault.enable_dynamic_version = true
    ∧ uvinitConfigDeclDefault.additional_requires = []
    ∧ uvinitConfigDeclDefault.skip_dirs = default_skip_dirs := by
  refine ⟨⟨?_, ?_⟩, ⟨?_, ?_⟩, rfl, rfl, rfl, rfl⟩ <;> decide

/-- Claim C1, counterexample: a single queued file whose transform
fails; `run_uvinit` still returns `Ok(())`, so `main` exits with success
status while a per-file transformation failed. -/
theorem c1_counterexample :
    (run_uvinit (.ok ⟨[], true, true, [], true, true⟩)
        (.ok ["a/pyproject.toml"]) (fun _ => .ok false)
        (fun _ => .error "write failed") true (.ok [])).result = .ok ()
    ∧ (run_uvinit (.ok ⟨[], true, true, [], true, true⟩)
        (.ok ["a/pyproject.toml"]) (fun _ => .ok false)
        (fun _ => .error "write failed") true (.ok [])).transformed
      = ["a/pyproject.toml"] :=
  ⟨rfl, rfl⟩

/-- Claim C1 (amended): the run's final status is independent of the
per-file transform outcomes — it is success whenever config loading and
enumeration succeed and, if the confirmation prompt is reached, the
stdin read succeeds; per-file failures are only reported, never turned
into a failing exit status. -/
theorem c1_status_independent_of_transforms (cfgc : UvinitConfig)
    (files : List String) (det : String → Except String Bool)
    (tr : String → Except String Unit) (yes : Bool)
    (sl : Except String (List Char))
    (h : yes = true ∨ ∃ l, sl = .ok l) :
    (run_uvinit (.ok cfgc) (.ok files) det tr yes sl).result = .ok () := by
  by_cases he : files.isEmpty
  · simp [run_uvinit, he]
  · by_cases ht : (files.filter fun f => match det f with
        | .ok false => true | _ => false).isEmpty
    · simp [run_uvinit, he, ht]
    · rcases h with hy | ⟨l, hl⟩
      · simp [run_uvinit, he, ht, hy]
      · subst hl
        cases hy2 : yes
        · cases ha : acceptsLine l <;>
            simp [run_uvinit, he, ht, hy2, ha, Except.map]
        · simp [run_uvinit, he, ht, hy2]

/-- Claim C1 (amended), witness: failing transform, declined prompt path
not taken, still a success status. -/
theorem c1_amended_witness :
    (run_uvinit (.ok ⟨[], true, true, [], true, true⟩) (.ok ["p"])
        (fun _ => .ok false) (fun _ => .error "boom") false (.ok ['n'])).result
      = .ok () :=
  c1_status_independent_of_transforms ⟨[], true, true, [], true, true⟩ ["p"]
    (fun _ => .ok false) (fun _ => .error "boom") false (.ok ['n'])
    (.inr ⟨['n'], rfl⟩)

/-- Claim C5, counterexample: the line `" y"` begins with a space, not
`y` or `Y`, yet the Apply phase runs and transforms the queued file,
because the code trims and lowercases the line before testing. -/
theorem c5_counterexample :
    (run_uvinit (.ok ⟨[], true, true, [], true, true⟩) (.ok ["p"])
        (fun _ => .ok false) (fun _ => .ok ()) false
        (.ok [' ', 'y'])).transformed = ["p"]
    ∧ ([' ', 'y'].head? ≠ some 'y')
    ∧ ([' ', 'y'].head? ≠ some 'Y') := by
  refine ⟨by decide, by decide, by decide⟩

/-- Claim C5 (amended): with the skip flag unset and a nonempty queue,
the Apply phase runs iff the confirmation line, after trimming
surrounding whitespace and lowercasing, starts with `y` — that is, iff
its first non-whitespace character is `y` or `Y`; on any other line the
run exits non-fatally (`Ok`) with no file transformed. -/
theorem c5_accepts_iff_trimmed_lower_y (cfgc : UvinitConfig)
    (files : List String) (det : String → Except String Bool)
    (tr : String → Except String Unit) (line : List Char)
    (hne : (files.filter fun f => match det f with
      | .ok false => true | _ => false).isEmpty = false) :
    (run_uvinit (.ok cfgc) (.ok files) det tr false (.ok line)).transformed
      = (if acceptsLine line then
          files.filter (fun f => match det f with
            | .ok false => true | _ => false)
         else [])
    ∧ (acceptsLine line = false →
        (run_uvinit (.ok cfgc) (.ok files) det tr false (.ok line)).result
          = .ok ()) := by
  have hfe : files.isEmpty = false := by
    cases files with
    | nil => simp at hne
    | cons a as => rfl
  cases ha : acceptsLine line <;>
    simp [run_uvinit, hfe, hne, ha, Except.map]

/-- Claim C5 (amended), witness: the declined line `"n"` leaves nothing
transformed and exits `Ok`; the accepted queue equals the filter. -/
theorem c5_amended_witness :
    ((run_uvinit (.ok ⟨[], true, true, [], true, true⟩) (.ok ["p"])
        (fun _ => .ok false) (fun _ => .ok ()) false (.ok ['n'])).transformed
      = (if acceptsLine ['n'] then
          ["p"].filter (fun f => match (fun (_ : String) =>
            (Except.ok false : Except String Bool)) f with
            | .ok false => true | _ => false)
         else []))
    ∧ (acceptsLine ['n'] = false →
        (run_uvinit (.ok ⟨[], true, true, [], true, true⟩) (.ok ["p"])
          (fun _ => .ok false) (fun _ => .ok ()) false (.ok ['n'])).result
          = .ok ()) :=
  c5_accepts_iff_trimmed_lower_y ⟨[], true, true, [], true, true⟩ ["p"]
    (fun _ => .ok false) (fun _ => .ok ()) ['n'] rfl

/-! ## The directory walker: membership and uniqueness -/

theorem existsEntryAt_nil_path (cs : List FSTree) :
    existsEntryAt cs [] = false := by
  induction cs with
  | nil => rw [existsEntryAt.eq_def]
  | cons c rest ih =>
    rw [existsEntryAt.eq_def]
    cases c <;> dsimp only <;> rw [Bool.false_or, ih]

mutual

/-- A path is returned by the walk from a node iff, relative to the
accumulated path, it is a `goodPath` (ends in the target name, avoids the
exclusion set) resolving to a file in that node's subtree. -/
theorem findRec_mem (skip : List String) :
    ∀ (t : FSTree) (acc p : List String),
      p ∈ find_pyproject_files_recursive skip acc t
        ↔ ∃ q, p = acc ++ q ∧ goodPath skip q = true ∧ existsFileAt t q = true
  | .file n, acc, p => by
    rw [find_pyproject_files_recursive.eq_def]
    dsimp only
    simp [existsFileAt.eq_def]
  | .dir n cs, acc, p => by
    rw [find_pyproject_files_recursive.eq_def]
    dsimp only
    simp only [existsFileAt.eq_def]
    exact findInEntries_mem skip cs acc p

theorem findInEntries_mem (skip : List String) :
    ∀ (cs : List FSTree) (acc p : List String),
      p ∈ findInEntries skip acc cs
        ↔ ∃ q, p = acc ++ q ∧ goodPath skip q = true ∧ existsEntryAt cs q = true
  | [], acc, p => by
    rw [findInEntries.eq_def]
    dsimp only
    simp [existsEntryAt.eq_def]
  | c :: rest, acc, p => by
    rw [findInEntries.eq_def]
    dsimp only
    constructor
    · intro h
      rcases List.mem_append.mp h with h1 | h2
      · cases c with
        | file n =>
          dsimp only at h1
          by_cases hn : n = "pyproject.toml"
          · rw [if_pos hn] at h1
            simp only [List.mem_singleton] at h1
            refine ⟨[n], h1, by simp [goodPath, hn], ?_⟩
            rw [existsEntryAt.eq_def]
            dsimp only
            simp
          · rw [if_neg hn] at h1
            simp at h1
        | dir dn cs' =>
          dsimp only at h1
          by_cases hd : dn ∈ skip
          · rw [if_pos hd] at h1
            simp at h1
          · rw [if_neg hd] at h1
            obtain ⟨q, hq1, hq2, hq3⟩ :=
              (findRec_mem skip (.dir dn cs') (acc ++ [dn]) p).mp h1
            refine ⟨dn :: q, by rw [hq1]; simp, ?_, ?_⟩
            · cases q with
              | nil => simp [goodPath] at hq2
              | cons q1 qt =>
                simp only [goodPath]
                simp [hd, hq2]
            · rw [existsEntryAt.eq_def]
              dsimp only
              simp [hq3]
      · obtain ⟨q, hq1, hq2, hq3⟩ := (findInEntries_mem skip rest acc p).mp h2
        refine ⟨q, hq1, hq2, ?_⟩
        rw [existsEntryAt.eq_def]
        dsimp only
        simp [hq3]
    · rintro ⟨q, rfl, hg, he⟩
      rw [existsEntryAt.eq_def] at he
      dsimp only at he
      rcases Bool.or_eq_true_iff.mp he with h1 | h2
      · cases c with
        | file n =>
          cases q with
          | nil => simp at h1
          | cons q1 qt =>
            cases qt with
            | nil =>
              dsimp only at h1
              rw [decide_eq_true_eq] at h1
              have hq1 : q1 = "pyproject.toml" := by
                simpa [goodPath] using hg
              apply List.mem_append.mpr
              left
              dsimp only
              rw [h1, hq1, if_pos rfl]
              simp
            | cons q2 qt2 => simp at h1
        | dir dn cs' =>
          cases q with
          | nil => simp at h1
          | cons q1 qt =>
            dsimp only at h1
            rw [Bool.and_eq_true, decide_eq_true_eq] at h1
            obtain ⟨rfl, hfile⟩ := h1
            cases qt with
            | nil =>
              rw [show existsFileAt (FSTree.dir dn cs') [] = existsEntryAt cs' []
                  from by rw [existsFileAt.eq_def], existsEntryAt_nil_path] at hfile
              cases hfile
            | cons q2 qt2 =>
              have hgood : dn ∉ skip ∧ goodPath skip (q2 :: qt2) = true := by
                simpa [goodPath] using hg
              apply List.mem_append.mpr
              left
              dsimp only
              rw [if_neg hgood.1]
              apply (findRec_mem skip (.dir dn cs') (acc ++ [dn]) _).mpr
              exact ⟨q2 :: qt2, by simp, hgood.2, hfile⟩
      · apply List.mem_append.mpr
        right
        exact (findInEntries_mem skip rest acc _).mpr ⟨q, rfl, hg, h2⟩

end

/-- Every returned path extends the accumulator with the contributing
entry's name as its next component. -/
theorem findInEntries_head (skip : List String) (cs : List FSTree)
    (acc p : List String) (h : p ∈ findInEntries skip acc cs) :
    ∃ c, c ∈ cs ∧ ∃ q, p = acc ++ c.name :: q := by
  induction cs with
  | nil =>
    rw [findInEntries.eq_def] at h
    cases h
  | cons c rest ih =>
    rw [findInEntries.eq_def] at h
    dsimp only at h
    rcases List.mem_append.mp h with h1 | h2
    · cases c with
      | file n =>
        dsimp only at h1
        by_cases hn : n = "pyproject.toml"
        · rw [if_pos hn] at h1
          simp only [List.mem_singleton] at h1
          exact ⟨.file n, List.mem_cons_self _ _, [], by rw [h1]; rfl⟩
        · rw [if_neg hn] at h1
          cases h1
      | dir dn cs' =>
        dsimp only at h1
        by_cases hd : dn ∈ skip
        · rw [if_pos hd] at h1
          cases h1
        · rw [if_neg hd] at h1
          obtain ⟨q, hq1, -, -⟩ :=
            (findRec_mem skip (.dir dn cs') (acc ++ [dn]) p).mp h1
          exact ⟨.dir dn cs', List.mem_cons_self _ _, q, by rw [hq1]; simp [FSTree.name]⟩
    · obtain ⟨c', hc', q, hq⟩ := ih h2
      exact ⟨c', List.mem_cons_of_mem _ hc', q, hq⟩

mutual

/-- On well-formed trees (sibling names distinct) the walk never returns
the same path twice. -/
theorem findRec_nodup (skip : List String) :
    ∀ (t : FSTree) (acc : List String), WfFS t = true →
      (find_pyproject_files_recursive skip acc t).Nodup
  | .file n, acc, _ => by
    rw [find_pyproject_files_recursive.eq_def]
    exact List.nodup_nil
  | .dir n cs, acc, h => by
    rw [find_pyproject_files_recursive.eq_def]
    dsimp only
    refine findInEntries_nodup skip cs acc ?_
    rw [WfFS.eq_def] at h
    exact h
  termination_by t _ _ => sizeOf t

theorem findInEntries_nodup (skip : List String) :
    ∀ (cs : List FSTree) (acc : List String), WfEntries cs = true →
      (findInEntries skip acc cs).Nodup
  | [], acc, _ => by
    rw [findInEntries.eq_def]
    exact List.nodup_nil
  | c :: rest, acc, h => by
    rw [WfEntries.eq_def] at h
    dsimp only at h
    rw [Bool.and_eq_true, Bool.and_eq_true, decide_eq_true_eq] at h
    obtain ⟨⟨hname, hwfc⟩, hwfr⟩ := h
    rw [findInEntries.eq_def]
    dsimp only
    apply List.Nodup.append
    · cases c with
      | file n =>
        dsimp only
        by_cases hn : n = "pyproject.toml"
        · rw [if_pos hn]
          exact List.nodup_singleton _
        · rw [if_neg hn]
          exact List.nodup_nil
      | dir dn cs' =>
        dsimp only
        by_cases hd : dn ∈ skip
        · rw [if_pos hd]
          exact List.nodup_nil
        · rw [if_neg hd]
          exact findRec_nodup skip (.dir dn cs') (acc ++ [dn]) hwfc
    · exact findInEntries_nodup skip rest acc hwfr
    · intro x hx1 hx2
      obtain ⟨c', hc', q', hq'⟩ := findInEntries_head skip rest acc x hx2
      have hxhead : ∃ q, x = acc ++ c.name :: q := by
        cases c with
        | file n =>
          dsimp only at hx1
          by_cases hn : n = "pyproject.toml"
          · rw [if_pos hn] at hx1
            simp only [List.mem_singleton] at hx1
            exact ⟨[], by rw [hx1]; rfl⟩
          · rw [if_neg hn] at hx1
            cases hx1
        | dir dn cs' =>
          dsimp only at hx1
          by_cases hd : dn ∈ skip
          · rw [if_pos hd] at hx1
            cases hx1
          · rw [if_neg hd] at hx1
            obtain ⟨q, hq1, -, -⟩ :=
              (findRec_mem skip (.dir dn cs') (acc ++ [dn]) x).mp hx1
            exact ⟨q, by rw [hq1]; simp [FSTree.name]⟩
      obtain ⟨q, hq⟩ := hxhead
      rw [hq] at hq'
      have hcancel := List.append_cancel_left hq'
      have hhead : c.name = c'.name := (List.cons_eq_cons.mp hcancel).1
      exact hname (hhead ▸ List.mem_map.mpr ⟨c', hc', rfl⟩)
  termination_by cs _ _ => sizeOf cs

end

/-- Claim C3: over every modelled directory tree with distinct sibling
names, the walk returns exactly the paths that end in `pyproject.toml`,
resolve to a file, and pass through no directory whose name is in the
exclusion set (matched by exact, case-sensitive string equality), and it
returns each such path at most once. -/
theorem c3_walker_correct (skip : List String) (t : FSTree)
    (hwf : WfFS t = true) :
    (∀ p, p ∈ find_pyproject_files skip t
      ↔ (goodPath skip p && existsFileAt t p) = true)
    ∧ (find_pyproject_files skip t).Nodup := by
  constructor
  · intro p
    unfold find_pyproject_files
    rw [findRec_mem skip t [] p]
    constructor
    · rintro ⟨q, rfl, h2, h3⟩
      simp [h2, h3]
    · intro h
      rw [Bool.and_eq_true] at h
      exact ⟨p, by simp, h.1, h.2⟩
  · exact findRec_nodup skip t [] hwf

/-- Claim C3, witness: a root holding a matching file and an excluded
`.git` directory holding another; only the root file is returned. -/
theorem c3_witness :
    (∀ p, p ∈ find_pyproject_files [".git"]
        (.dir "r" [.file "pyproject.toml", .dir ".git" [.file "pyproject.toml"]])
      ↔ (goodPath [".git"] p && existsFileAt
          (.dir "r" [.file "pyproject.toml", .dir ".git" [.file "pyproject.toml"]])
          p) = true)
    ∧ (find_pyproject_files [".git"]
        (.dir "r" [.file "pyproject.toml",
          .dir ".git" [.file "pyproject.toml"]])).Nodup :=
  c3_walker_correct [".git"] _
    (by simp [WfFS.eq_def, WfEntries.eq_def, FSTree.name])

end PostInit
